import Mathlib

/-
Verification of the repository scanner (src/repo_scanner.py) against its
natural-language specification.  The Python source is shallowly embedded:
pure functions become Lean functions over explicit data; the filesystem is
modelled as an inductive tree whose directory nodes carry the outcome of
enumerating them (ok, permission denied, or another error), and whose file
nodes carry the outcome of stat (Option Nat, none meaning OSError) and of
opening/reading them (Except: an I/O error message, or the raw bytes).
Python str.lower is modelled on the ASCII range, which covers every string
the classification tables and the claims mention.
-/

set_option maxHeartbeats 1000000

namespace RepoScanner

/-- A raw byte. -/
abbrev Byte := Fin 256

/-! Classification tables, verbatim from src/repo_scanner.py lines 33-60.
Python uses sets; membership is all that is ever asked of them, so lists
with `contains` are an equivalent embedding. -/

/-- TEXT_EXTENSIONS (source lines 33-41). -/
def TEXT_EXTENSIONS : List String :=
  [".py", ".js", ".jsx", ".ts", ".tsx", ".html", ".css", ".scss", ".sass",
   ".json", ".xml", ".yaml", ".yml", ".txt", ".md", ".markdown", ".rst",
   ".c", ".cpp", ".h", ".hpp", ".java", ".go", ".rs", ".php", ".rb",
   ".sh", ".bash", ".sql", ".r", ".m", ".swift", ".kt", ".scala",
   ".vue", ".svelte", ".conf", ".config", ".ini", ".toml", ".env",
   ".log", ".csv", ".tsv", ".gitignore", ".dockerignore", "Dockerfile",
   "Makefile", ".editorconfig", "requirements.txt", "package.json"]

/-- BINARY_EXTENSIONS (source lines 44-52). -/
def BINARY_EXTENSIONS : List String :=
  [".png", ".jpg", ".jpeg", ".gif", ".bmp", ".ico", ".svg", ".webp",
   ".mp4", ".avi", ".mov", ".mkv", ".mp3", ".wav", ".flac",
   ".zip", ".tar", ".gz", ".rar", ".7z", ".bz2",
   ".exe", ".dll", ".so", ".dylib", ".bin",
   ".pdf", ".doc", ".docx", ".xls", ".xlsx", ".ppt", ".pptx",
   ".pyc", ".pyo", ".class", ".o", ".obj",
   ".db", ".sqlite", ".sqlite3"]

/-- SKIP_DIRECTORIES (source lines 55-60). -/
def SKIP_DIRECTORIES : List String :=
  [".git", ".svn", ".hg", "__pycache__", "node_modules",
   ".venv", "venv", "env", ".env", "virtualenv",
   ".idea", ".vscode", ".vs", ".pytest_cache", ".mypy_cache",
   "dist", "build", ".eggs", "*.egg-info", "target"]

/-- The conventional extensionless file names accepted by
should_include_file (source line 98). -/
def CONVENTIONAL_NAMES : List String :=
  ["makefile", "dockerfile", "readme", "license", "changelog"]

/-- Tree drawing token (source line 63). -/
def TREE_BRANCH : String := "├── "

/-- Tree drawing token (source line 64). -/
def TREE_LAST : String := "└── "

/-- Tree drawing token (source line 65). -/
def TREE_VERTICAL : String := "│   "

/-- Tree drawing token (source line 66). -/
def TREE_SPACE : String := "    "

/-- Python str.lower, modelled on the ASCII range (every constant it is
compared against here is ASCII). -/
def pyLower (s : String) : String := String.mk (s.data.map Char.toLower)

/-- Python str.startswith applied to a single dot: does the first
character exist and equal the dot? -/
def startsWithDot (s : String) : Bool :=
  match s.data with
  | [] => false
  | c :: _ => c == '.'

/-- Index of the last dot in a list of characters, as str.rfind would
report it (none when there is no dot). -/
def rfindDot (l : List Char) : Option Nat :=
  ((l.enum.filter (fun p => p.2 == '.')).map Prod.fst).getLast?

/-- pathlib.PurePath.suffix of a final path component: the substring from
the last dot on, provided that dot is neither the first nor the last
character; otherwise the empty string. -/
def pathSuffix (s : String) : String :=
  match rfindDot s.data with
  | some i => if 0 < i ∧ i < s.data.length - 1 then String.mk (s.data.drop i) else ""
  | none => ""

/-- The character class removed by the regular expression on source line
82: codepoints 00-08, 0B, 0C, 0E-1F and 7F-9F. -/
def strippedByRegex (c : Char) : Bool :=
  c.toNat ≤ 0x08 || c.toNat == 0x0B || c.toNat == 0x0C ||
  (0x0E ≤ c.toNat && c.toNat ≤ 0x1F) ||
  (0x7F ≤ c.toNat && c.toNat ≤ 0x9F)

/-- sanitize_xml_content (source lines 69-84): an empty string is returned
unchanged; otherwise NULL bytes are removed (text.replace, line 78) and
then the regex character class is removed (re.sub, line 82). -/
def sanitize_xml_content (s : String) : String :=
  if s = "" then s
  else
    let noNull := s.data.filter (fun c => !(c == '\x00'))
    String.mk (noNull.filter (fun c => !strippedByRegex c))

/-- should_include_file (source lines 87-107).  The file is given by its
final name component and the result of stat (some size, or none when stat
raises OSError).  Note the fall-through on line 107: the function returns
False even when the stat succeeds with a size of at most 10 MiB. -/
def should_include_file (name : String) (statSize : Option Nat) : Bool :=
  let ext := pyLower (pathSuffix name)
  let lname := pyLower name
  if BINARY_EXTENSIONS.contains ext then false
  else if TEXT_EXTENSIONS.contains ext then true
  else if ext == "" && CONVENTIONAL_NAMES.contains lname then true
  else
    match statSize with
    | none => false
    | some sz => if sz > 10 * 1024 * 1024 then false else false

/-- should_skip_directory (source lines 110-112). -/
def should_skip_directory (dirName : String) : Bool :=
  SKIP_DIRECTORIES.contains dirName || startsWithDot dirName

/-! The Reader (read_file_content, source lines 146-161).  Python codecs
are embedded from their documented behaviour: a strict UTF-8 decoder, the
BOM-stripping utf-8-sig variant, latin-1 and iso-8859-1 (which map every
byte to the character of the same codepoint), and cp1252 (latin-1 with the
0x80-0x9F block replaced by the Windows-1252 table, five bytes of which
are undefined and raise UnicodeDecodeError in strict mode).  Text-mode
open also performs universal-newline translation after decoding. -/

/-- Is the byte a UTF-8 continuation byte (0x80-0xBF)? -/
def isCont (b : Byte) : Bool := 0x80 ≤ b.val && b.val ≤ 0xBF

/-- Strict UTF-8 decoding: rejects truncated and overlong sequences,
surrogates, and codepoints above 0x10FFFF, exactly as Python's strict
utf-8 codec does. -/
def utf8Decode : List Byte → Option (List Char)
  | [] => some []
  | b :: rest =>
    if b.val < 0x80 then
      (utf8Decode rest).map (fun cs => Char.ofNat b.val :: cs)
    else if b.val < 0xC2 then none
    else if b.val ≤ 0xDF then
      match rest with
      | [] => none
      | c :: rest2 =>
        if isCont c then
          (utf8Decode rest2).map
            (fun cs => Char.ofNat ((b.val - 0xC0) * 0x40 + (c.val - 0x80)) :: cs)
        else none
    else if b.val ≤ 0xEF then
      match rest with
      | c :: d :: rest2 =>
        let contOk :=
          if b.val = 0xE0 then 0xA0 ≤ c.val && c.val ≤ 0xBF
          else if b.val = 0xED then 0x80 ≤ c.val && c.val ≤ 0x9F
          else isCont c
        if contOk && isCont d then
          (utf8Decode rest2).map
            (fun cs => Char.ofNat
              ((b.val - 0xE0) * 0x1000 + (c.val - 0x80) * 0x40 + (d.val - 0x80)) :: cs)
        else none
      | _ => none
    else if b.val ≤ 0xF4 then
      match rest with
      | c :: d :: e :: rest2 =>
        let contOk :=
          if b.val = 0xF0 then 0x90 ≤ c.val && c.val ≤ 0xBF
          else if b.val = 0xF4 then 0x80 ≤ c.val && c.val ≤ 0x8F
          else isCont c
        if contOk && isCont d && isCont e then
          (utf8Decode rest2).map
            (fun cs => Char.ofNat
              ((b.val - 0xF0) * 0x40000 + (c.val - 0x80) * 0x1000 +
                (d.val - 0x80) * 0x40 + (e.val - 0x80)) :: cs)
        else none
      | _ => none
    else none

/-- Strip one leading UTF-8 byte-order mark, as the utf-8-sig codec does. -/
def stripBom (bs : List Byte) : List Byte :=
  if bs.take 3 = [(0xEF : Byte), 0xBB, 0xBF] then bs.drop 3 else bs

/-- latin-1 / iso-8859-1 decoding: every byte maps to the character of its
own codepoint; it never fails. -/
def latin1Decode (bs : List Byte) : List Char :=
  bs.map (fun b => Char.ofNat b.val)

/-- One byte of cp1252: identity outside 0x80-0x9F, the Windows-1252
table inside it, with 0x81, 0x8D, 0x8F, 0x90 and 0x9D undefined. -/
def cp1252Byte (b : Byte) : Option Nat :=
  if b.val < 0x80 || 0x9F < b.val then some b.val
  else match b.val with
    | 0x80 => some 0x20AC
    | 0x82 => some 0x201A
    | 0x83 => some 0x0192
    | 0x84 => some 0x201E
    | 0x85 => some 0x2026
    | 0x86 => some 0x2020
    | 0x87 => some 0x2021
    | 0x88 => some 0x02C6
    | 0x89 => some 0x2030
    | 0x8A => some 0x0160
    | 0x8B => some 0x2039
    | 0x8C => some 0x0152
    | 0x8E => some 0x017D
    | 0x91 => some 0x2018
    | 0x92 => some 0x2019
    | 0x93 => some 0x201C
    | 0x94 => some 0x201D
    | 0x95 => some 0x2022
    | 0x96 => some 0x2013
    | 0x97 => some 0x2014
    | 0x98 => some 0x02DC
    | 0x99 => some 0x2122
    | 0x9A => some 0x0161
    | 0x9B => some 0x203A
    | 0x9C => some 0x0153
    | 0x9E => some 0x017E
    | 0x9F => some 0x0178
    | _ => none

/-- Strict cp1252 decoding. -/
def cp1252Decode (bs : List Byte) : Option (List Char) :=
  (bs.mapM cp1252Byte).map (fun ns => ns.map Char.ofNat)

/-- The candidate encodings, in the order of source line 148. -/
inductive PyEncoding where
  | utf8
  | utf8sig
  | latin1
  | cp1252
  | iso8859_1

/-- Decoding dispatch: the result of bytes.decode(enc) in strict mode,
none meaning UnicodeDecodeError. -/
def decodeBytes : PyEncoding → List Byte → Option (List Char)
  | .utf8, bs => utf8Decode bs
  | .utf8sig, bs => utf8Decode (stripBom bs)
  | .latin1, bs => some (latin1Decode bs)
  | .cp1252, bs => cp1252Decode bs
  | .iso8859_1, bs => some (latin1Decode bs)

/-- encodings = ['utf-8', 'utf-8-sig', 'latin-1', 'cp1252', 'iso-8859-1']
(source line 148). -/
def readerEncodings : List PyEncoding :=
  [.utf8, .utf8sig, .latin1, .cp1252, .iso8859_1]

/-- Universal-newline translation performed by text-mode open: CRLF and
lone CR both become LF. -/
def univNewlines : List Char → List Char
  | [] => []
  | '\r' :: '\n' :: rest => '\n' :: univNewlines rest
  | '\r' :: rest => '\n' :: univNewlines rest
  | c :: rest => c :: univNewlines rest

/-- A file as the scanner sees it: its final name component, the result
of stat().st_size (none when stat raises OSError), and the result of
opening and reading it (an I/O error message, or the raw bytes). -/
structure FileNode where
  name : String
  statSize : Option Nat
  data : Except String (List Byte)

/-- The loop of read_file_content over the candidate encodings (source
lines 150-157): the first encoding that decodes without error wins. -/
def readLoop : List PyEncoding → List Byte → Option (List Char)
  | [], _ => none
  | e :: es, bs =>
    match decodeBytes e bs with
    | some cs => some cs
    | none => readLoop es bs

/-- read_file_content (source lines 146-161).  A non-decode I/O failure
(modelled by the Except.error of the file's data, since open would raise
it on the first attempt) yields the bracketed error string of line 159; a
successful decode yields the sanitized text of line 155; if every
encoding fails the fixed diagnostic of line 161 is returned.  Totality of
this function embeds the fact that the Python function never raises. -/
def read_file_content (f : FileNode) : String :=
  match f.data with
  | .error msg => "[Error reading file: " ++ msg ++ "]"
  | .ok bs =>
    match readLoop readerEncodings bs with
    | some cs => sanitize_xml_content (String.mk (univNewlines cs))
    | none => "[Error: Unable to decode file with supported encodings]"

/-- Modelled from the spec: the Reader returns the sanitized text produced
by the first candidate encoding in the ordered list that decodes the
bytes without error; the fixed diagnostic when all candidates fail; and a
diagnostic embedding the error description on any other I/O failure.
Stated with List.findSome?, which literally picks the first success. -/
def readerSpecModel (f : FileNode) : String :=
  match f.data with
  | .error msg => "[Error reading file: " ++ msg ++ "]"
  | .ok bs =>
    match readerEncodings.findSome? (fun e => decodeBytes e bs) with
    | some cs => sanitize_xml_content (String.mk (univNewlines cs))
    | none => "[Error: Unable to decode file with supported encodings]"

/-! The filesystem model and the two traversals (generate_tree_structure,
source lines 115-143, and collect_file_contents, source lines 164-190). -/

/-- The outcome of enumerating a directory (Path.iterdir): a listing, a
PermissionError, or another exception carrying a message. -/
inductive DirAccess where
  | ok
  | permDenied
  | err (msg : String)

/-- A filesystem entry: a file, or a directory with its enumeration
outcome and (when the enumeration succeeds) its children. -/
inductive FSEntry where
  | file (f : FileNode)
  | dir (name : String) (acc : DirAccess) (children : List FSEntry)

/-- The final name component of an entry. -/
def entryName : FSEntry → String
  | .file f => f.name
  | .dir n _ _ => n

/-- Path.is_dir for an entry of the model. -/
def entryIsDir : FSEntry → Bool
  | .file _ => false
  | .dir _ _ _ => true

/-- First component of the sort key of source lines 122 and 172:
Python's `not x.is_dir()` with False before True, so directories rank 0
and files rank 1. -/
def sortRank (e : FSEntry) : Nat := if entryIsDir e then 0 else 1

/-- The sort key `(not x.is_dir(), x.name.lower())`, compared
lexicographically as Python compares tuples. -/
def sortKey (e : FSEntry) : Lex (Nat × String) :=
  toLex (sortRank e, pyLower (entryName e))

/-- Strict lexicographic comparison of character lists by codepoint, the
order Python uses on strings, as an executable Boolean. -/
def strLtB : List Char → List Char → Bool
  | [], [] => false
  | [], _ :: _ => true
  | _ :: _, [] => false
  | a :: as, b :: bs => a < b || (a == b && strLtB as bs)

/-- Executable strict comparison of sort keys: rank first, then the
lowered name; proved below to agree with the order on sortKey. -/
def keyLtB (a b : FSEntry) : Bool :=
  sortRank a < sortRank b ||
    (sortRank a == sortRank b &&
      strLtB (pyLower (entryName a)).data (pyLower (entryName b)).data)

/-- Stable ordered insertion: x goes in front of the first element whose
key is not smaller than its own, so elements with equal keys keep their
original relative order. -/
def insertEntry (x : FSEntry) : List FSEntry → List FSEntry
  | [] => [x]
  | y :: ys => if keyLtB y x then y :: insertEntry x ys else x :: y :: ys

/-- The sort performed by `sorted(root_path.iterdir(), key=...)` on source
lines 122 and 172: a stable ascending sort by sortKey, realized as
insertion sort (Python's sorted guarantees exactly stable ascending
order, so any stable sorting algorithm is an equivalent embedding). -/
def sortEntries (l : List FSEntry) : List FSEntry := l.foldr insertEntry []

/-- The filter of source line 123 (and the `continue` of source lines
173-174): an entry is kept unless it is a directory whose name
should_skip_directory accepts.  Files are never dropped here. -/
def keepEntry (e : FSEntry) : Bool :=
  !(entryIsDir e && should_skip_directory (entryName e))

/-- The kept entries, in sorted order already. -/
def keepEntries (l : List FSEntry) : List FSEntry := l.filter keepEntry

/-- The connector chosen on source line 127. -/
def connector (isLast : Bool) : String := if isLast then TREE_LAST else TREE_BRANCH

/-- The prefix extension of source line 135. -/
def prefixExt (isLast : Bool) : String := if isLast then TREE_SPACE else TREE_VERTICAL

mutual

/-- The tree lines contributed by one entry (source lines 125-136): its
own decorated line, then — for a directory — the recursive listing under
the extended prefix.  The recursive call carries its own try/except, so a
child's enumeration error becomes a marker line inside the child's block
(source lines 138-141). -/
def treeEntry : FSEntry → String → Bool → List String
  | .file f, pre, isLast => [pre ++ connector isLast ++ f.name]
  | .dir n acc ch, pre, isLast =>
    (pre ++ connector isLast ++ (n ++ "/")) ::
      (match acc with
       | .permDenied => [pre ++ prefixExt isLast ++ "[Permission Denied]"]
       | .err m => [pre ++ prefixExt isLast ++ ("[Error: " ++ m ++ "]")]
       | .ok => treeItems (keepEntries (sortEntries ch)) (pre ++ prefixExt isLast))
termination_by e _ _ => sizeOf e
decreasing_by
  have hins : ∀ (x : FSEntry) (l : List FSEntry),
      sizeOf (insertEntry x l) = 1 + sizeOf x + sizeOf l := by
    intro x l
    induction l with
    | nil => simp [insertEntry]
    | cons y ys ih =>
      by_cases h : keyLtB y x = true
      · simp only [insertEntry, if_pos h, List.cons.sizeOf_spec, ih]
        try omega
      · simp only [insertEntry, if_neg h, List.cons.sizeOf_spec]
        try omega
  have hsort : ∀ l : List FSEntry, sizeOf (sortEntries l) = sizeOf l := by
    intro l
    induction l with
    | nil => rfl
    | cons x xs ih =>
      simp only [sortEntries, List.foldr] at ih ⊢
      rw [hins, ih, List.cons.sizeOf_spec]
  have hfil : ∀ l : List FSEntry, sizeOf (keepEntries l) ≤ sizeOf l := by
    intro l
    induction l with
    | nil => simp [keepEntries]
    | cons x xs ih =>
      by_cases h : keepEntry x
      · simp only [keepEntries, List.filter_cons, if_pos h,
          List.cons.sizeOf_spec] at ih ⊢
        omega
      · simp only [keepEntries, List.filter_cons, if_neg h,
          List.cons.sizeOf_spec] at ih ⊢
        omega
  have hks : ∀ l : List FSEntry, sizeOf (keepEntries (sortEntries l)) ≤ sizeOf l :=
    fun l => le_trans (hfil (sortEntries l)) (le_of_eq (hsort l))
  simp only [FSEntry.dir.sizeOf_spec]
  exact lt_of_le_of_lt (hks _) (by omega)

/-- The loop of source lines 125-136 over the sorted, filtered items: the
last item gets the last-item connector. -/
def treeItems : List FSEntry → String → List String
  | [], _ => []
  | [e], pre => treeEntry e pre true
  | e :: e2 :: rest, pre => treeEntry e pre false ++ treeItems (e2 :: rest) pre
termination_by l _ => sizeOf l
decreasing_by
  all_goals simp only [List.cons.sizeOf_spec]
  all_goals omega

end

/-- generate_tree_structure (source lines 115-143) for one directory
level: the try of line 121 catches the enumeration errors of the level
itself (lines 138-141); a successful enumeration is sorted, filtered and
rendered by the loop. -/
def generate_tree_structure (acc : DirAccess) (ch : List FSEntry) (pre : String) :
    List String :=
  match acc with
  | .permDenied => [pre ++ "[Permission Denied]"]
  | .err m => [pre ++ ("[Error: " ++ m ++ "]")]
  | .ok => treeItems (keepEntries (sortEntries ch)) pre

/-! collect_file_contents (source lines 164-190).  The relative path of a
collected file is modelled as its list of path segments below the scan
root, matching the data model of the spec (str() of the PurePath merely
joins those segments for display). -/

mutual

/-- The contribution of one (sorted, kept) entry to the collection (source
lines 176-183): an included file yields one (relative path, content)
pair; a directory yields its recursive collection, whose own try/except
silently turns its enumeration errors into an empty contribution (source
lines 185-188). -/
def collectEntry : FSEntry → List String → List (List String × String)
  | .file f, pre =>
    if should_include_file f.name f.statSize then
      [(pre ++ [f.name], read_file_content f)]
    else []
  | .dir n acc ch, pre =>
    match acc with
    | .permDenied => []
    | .err _ => []
    | .ok => collectItems (keepEntries (sortEntries ch)) (pre ++ [n])
termination_by e _ => sizeOf e
decreasing_by
  have hins : ∀ (x : FSEntry) (l : List FSEntry),
      sizeOf (insertEntry x l) = 1 + sizeOf x + sizeOf l := by
    intro x l
    induction l with
    | nil => simp [insertEntry]
    | cons y ys ih =>
      by_cases h : keyLtB y x = true
      · simp only [insertEntry, if_pos h, List.cons.sizeOf_spec, ih]
        try omega
      · simp only [insertEntry, if_neg h, List.cons.sizeOf_spec]
        try omega
  have hsort : ∀ l : List FSEntry, sizeOf (sortEntries l) = sizeOf l := by
    intro l
    induction l with
    | nil => rfl
    | cons x xs ih =>
      simp only [sortEntries, List.foldr] at ih ⊢
      rw [hins, ih, List.cons.sizeOf_spec]
  have hfil : ∀ l : List FSEntry, sizeOf (keepEntries l) ≤ sizeOf l := by
    intro l
    induction l with
    | nil => simp [keepEntries]
    | cons x xs ih =>
      by_cases h : keepEntry x
      · simp only [keepEntries, List.filter_cons, if_pos h,
          List.cons.sizeOf_spec] at ih ⊢
        omega
      · simp only [keepEntries, List.filter_cons, if_neg h,
          List.cons.sizeOf_spec] at ih ⊢
        omega
  have hks : ∀ l : List FSEntry, sizeOf (keepEntries (sortEntries l)) ≤ sizeOf l :=
    fun l => le_trans (hfil (sortEntries l)) (le_of_eq (hsort l))
  simp only [FSEntry.dir.sizeOf_spec]
  exact lt_of_le_of_lt (hks _) (by omega)

/-- The loop of source lines 172-183 over the sorted, kept items,
concatenating their contributions in order. -/
def collectItems : List FSEntry → List String → List (List String × String)
  | [], _ => []
  | e :: rest, pre => collectEntry e pre ++ collectItems rest pre
termination_by l _ => sizeOf l
decreasing_by
  all_goals simp only [List.cons.sizeOf_spec]
  all_goals omega

end

/-- collect_file_contents (source lines 164-190) for the scan root: the
try of line 171 turns the root's own enumeration errors (permission or
otherwise) into an empty collection, with no marker entry (lines
185-188); a successful enumeration is sorted, filtered and collected. -/
def collect_file_contents (acc : DirAccess) (ch : List FSEntry) :
    List (List String × String) :=
  match acc with
  | .permDenied => []
  | .err _ => []
  | .ok => collectItems (keepEntries (sortEntries ch)) []

/-! The per-file embedding loops of the two exporters.  The document
libraries (python-docx paragraph creation, reportlab flowable creation)
are outside the repository; whether embedding a given content string
raises is therefore a parameter of the model: an oracle returning none on
success and some message when the library call would raise.  The
repository code that decides the claim — the presence of a try/except
around the per-file embedding — is embedded faithfully from the source:
generate_word_document wraps doc.add_paragraph(content) in try/except
(source lines 246-254); generate_pdf_document has no such handler around
its per-file Preformatted call (source lines 322-338). -/

/-- A block of the Word document model. -/
inductive DocxBlock where
  | para (text : String)
  | pageBreak

/-- A flowable of the PDF document model. -/
inductive PdfFlow where
  | para (text : String)
  | pre (text : String)
  | spacer
  | pageBreak

/-- The horizontal rule of source lines 239 and 243: 60 box-drawing dashes. -/
def rule60 : String := String.mk (List.replicate 60 '─')

/-- The horizontal rule of source lines 326 and 328: 100 box-drawing dashes. -/
def rule100 : String := String.mk (List.replicate 100 '─')

/-- The &, < and > escaping of source line 332 (str.replace applied in
that order; none of the replacements introduces a character a later one
rewrites, since &amp; etc. are handled character by character here). -/
def escapeMarkup (s : String) : String :=
  String.mk (s.data.flatMap (fun c =>
    if c == '&' then "&amp;".data
    else if c == '<' then "&lt;".data
    else if c == '>' then "&gt;".data
    else [c]))

/-- The per-file loop of generate_word_document (source lines 235-260),
with 1-based index as enumerate(file_contents, 1) provides it.  The
embedding oracle stands for doc.add_paragraph(content); on failure the
except branch of lines 250-254 adds the bracketed error paragraph
instead, and the loop continues with the remaining files. -/
def wordGo (emb : String → Option String) : Nat → List (String × String) → List DocxBlock
  | _, [] => []
  | idx, (rel, content) :: rest =>
    [DocxBlock.para rule60,
     DocxBlock.para ("File: " ++ rel),
     DocxBlock.para rule60,
     (match emb content with
      | none => DocxBlock.para content
      | some e => DocxBlock.para ("[Error adding content: " ++ e ++ "]")),
     DocxBlock.para ""] ++
    (if idx % 3 == 0 then [DocxBlock.pageBreak] else []) ++
    wordGo emb (idx + 1) rest

/-- The file-contents section of the Word exporter. -/
def wordFileSections (emb : String → Option String) (files : List (String × String)) :
    List DocxBlock :=
  wordGo emb 1 files

/-- The per-file loop of generate_pdf_document (source lines 322-338).
The oracle stands for Preformatted(content_escaped, ...); there is no
try/except in the source, so a failure propagates out of the loop and
aborts the document build: the model returns Except.error with the
raised message, and no elements at all. -/
def pdfGo (emb : String → Option String) : Nat → List (String × String) →
    Except String (List PdfFlow)
  | _, [] => Except.ok []
  | idx, (rel, content) :: rest =>
    let esc := escapeMarkup content
    match emb esc with
    | some e => Except.error e
    | none =>
      (pdfGo emb (idx + 1) rest).map (fun tail =>
        [PdfFlow.para rule100,
         PdfFlow.para ("File: " ++ rel),
         PdfFlow.para rule100,
         PdfFlow.spacer,
         PdfFlow.pre esc,
         PdfFlow.spacer] ++
        (if idx % 2 == 0 then [PdfFlow.pageBreak] else []) ++ tail)

/-- The file-contents section of the PDF exporter: an error is a run
abort. -/
def pdfFileSections (emb : String → Option String) (files : List (String × String)) :
    Except String (List PdfFlow) :=
  pdfGo emb 1 files

/-! Spec-side definitions, written from the specification's words, against
which the embedded code is compared. -/

/-- The Unicode Cc control characters: codepoints 0x00-0x1F and
0x7F-0x9F. -/
def isUnicodeControl (c : Char) : Bool :=
  c.toNat ≤ 0x1F || (0x7F ≤ c.toNat && c.toNat ≤ 0x9F)

/-- The characters the Sanitizer keeps, per the spec: everything except
control characters other than tab, line-feed and carriage-return (the
null byte being the control character 0x00). -/
def sanitizerKeeps (c : Char) : Bool :=
  !(isUnicodeControl c && !(c == '\t' || c == '\n' || c == '\r'))

mutual

/-- Deep removal of Classifier-skipped directories: a kept directory
keeps its (recursively cleaned) children, a skipped one disappears with
its whole subtree.  The traversals should be blind to what it removes. -/
def pruneEntry : FSEntry → FSEntry
  | .file f => .file f
  | .dir n acc ch => .dir n acc (pruneList ch)

/-- Deep removal of skipped directories from a sibling list. -/
def pruneList : List FSEntry → List FSEntry
  | [] => []
  | e :: rest =>
    (if keepEntry e then [pruneEntry e] else []) ++ pruneList rest

end

mutual

/-- Replace every file's stat and data throughout the tree by an
arbitrary name-preserving transformation; directory structure and all
names are untouched.  The tree view should be invariant under this. -/
def mapFilesEntry (g : FileNode → FileNode) : FSEntry → FSEntry
  | .file f => .file (g f)
  | .dir n acc ch => .dir n acc (mapFilesList g ch)

/-- mapFilesEntry over a sibling list. -/
def mapFilesList (g : FileNode → FileNode) : List FSEntry → List FSEntry
  | [] => []
  | e :: rest => mapFilesEntry g e :: mapFilesList g rest

end

mutual

/-- The undecorated depth-first pre-order labels of one entry, from the
spec's words: the entry itself (directories marked by a trailing slash),
then, for a directory, the labels of its non-skipped descendants in
sorted order, with enumeration errors contributing their marker label. -/
def dfsLabelEntry : FSEntry → List String
  | .file f => [f.name]
  | .dir n acc ch =>
    (n ++ "/") ::
      (match acc with
       | .permDenied => ["[Permission Denied]"]
       | .err m => ["[Error: " ++ m ++ "]"]
       | .ok => dfsLabelItems (keepEntries (sortEntries ch)))
termination_by e => sizeOf e
decreasing_by
  have hins : ∀ (x : FSEntry) (l : List FSEntry),
      sizeOf (insertEntry x l) = 1 + sizeOf x + sizeOf l := by
    intro x l
    induction l with
    | nil => simp [insertEntry]
    | cons y ys ih =>
      by_cases h : keyLtB y x = true
      · simp only [insertEntry, if_pos h, List.cons.sizeOf_spec, ih]
        try omega
      · simp only [insertEntry, if_neg h, List.cons.sizeOf_spec]
        try omega
  have hsort : ∀ l : List FSEntry, sizeOf (sortEntries l) = sizeOf l := by
    intro l
    induction l with
    | nil => rfl
    | cons x xs ih =>
      simp only [sortEntries, List.foldr] at ih ⊢
      rw [hins, ih, List.cons.sizeOf_spec]
  have hfil : ∀ l : List FSEntry, sizeOf (keepEntries l) ≤ sizeOf l := by
    intro l
    induction l with
    | nil => simp [keepEntries]
    | cons x xs ih =>
      by_cases h : keepEntry x
      · simp only [keepEntries, List.filter_cons, if_pos h,
          List.cons.sizeOf_spec] at ih ⊢
        omega
      · simp only [keepEntries, List.filter_cons, if_neg h,
          List.cons.sizeOf_spec] at ih ⊢
        omega
  have hks : ∀ l : List FSEntry, sizeOf (keepEntries (sortEntries l)) ≤ sizeOf l :=
    fun l => le_trans (hfil (sortEntries l)) (le_of_eq (hsort l))
  simp only [FSEntry.dir.sizeOf_spec]
  exact lt_of_le_of_lt (hks _) (by omega)

/-- The undecorated pre-order labels of a sibling list. -/
def dfsLabelItems : List FSEntry → List String
  | [] => []
  | e :: rest => dfsLabelEntry e ++ dfsLabelItems rest
termination_by l => sizeOf l
decreasing_by
  all_goals simp only [List.cons.sizeOf_spec]
  all_goals omega

end

/-- The undecorated pre-order labels of a whole listing, the spec-side
counterpart of generate_tree_structure. -/
def dfsLabels (acc : DirAccess) (ch : List FSEntry) : List String :=
  match acc with
  | .permDenied => ["[Permission Denied]"]
  | .err m => ["[Error: " ++ m ++ "]"]
  | .ok => dfsLabelItems (keepEntries (sortEntries ch))

/-- Does the entry enumerate without error?  (Files trivially do.) -/
def entryAccessOk : FSEntry → Bool
  | .file _ => true
  | .dir _ .ok _ => true
  | .dir _ .permDenied _ => false
  | .dir _ (.err _) _ => false

/-- A well-formed filesystem entry: sibling names are distinct within
every directory, as a real filesystem guarantees. -/
inductive WFe : FSEntry → Prop where
  | file (f : FileNode) : WFe (.file f)
  | dir (n : String) (acc : DirAccess) (ch : List FSEntry)
      (hnames : (ch.map entryName).Nodup)
      (hch : ∀ e ∈ ch, WFe e) : WFe (.dir n acc ch)

/-- A well-formed sibling list: distinct names, all entries well-formed. -/
def WFl (ch : List FSEntry) : Prop :=
  (ch.map entryName).Nodup ∧ ∀ e ∈ ch, WFe e

/-- A file name reachable from a sibling list without crossing a skipped
directory or a failed enumeration: such a file must be listed by the
Tree Builder. -/
inductive FileReach : List FSEntry → String → Prop where
  | here (f : FileNode) (ch : List FSEntry) :
      FSEntry.file f ∈ ch → FileReach ch f.name
  | deeper (n : String) (sub : List FSEntry) (ch : List FSEntry) (nm : String) :
      FSEntry.dir n DirAccess.ok sub ∈ ch →
      should_skip_directory n = false →
      FileReach sub nm → FileReach ch nm

/-! Helper lemmas. -/

/-- Char equality testing agrees with codepoint equality testing. -/
theorem char_beq_toNat (c d : Char) : (c == d) = (c.toNat == d.toNat) := by
  rcases Decidable.em (c = d) with h | h
  · subst h
    rw [beq_self_eq_true, beq_self_eq_true]
  · have hn : c.toNat ≠ d.toNat := fun e => h (Char.eq_of_val_eq (UInt32.toNat.inj e))
    rw [beq_eq_false_iff_ne.mpr h, beq_eq_false_iff_ne.mpr hn]

/-- The two removal passes of the Sanitizer keep a character exactly when
the spec-side predicate does. -/
theorem sanitize_keep_pointwise (c : Char) :
    ((!(c == '\x00')) && !strippedByRegex c) = sanitizerKeeps c := by
  have h0 : (c == '\x00') = (c.toNat == 0) := by rw [char_beq_toNat]; rfl
  have h9 : (c == '\t') = (c.toNat == 9) := by rw [char_beq_toNat]; rfl
  have hA : (c == '\n') = (c.toNat == 10) := by rw [char_beq_toNat]; rfl
  have hD : (c == '\r') = (c.toNat == 13) := by rw [char_beq_toNat]; rfl
  unfold sanitizerKeeps isUnicodeControl strippedByRegex
  rw [h0, h9, hA, hD]
  rw [Bool.eq_iff_iff]
  simp only [Bool.and_eq_true, Bool.or_eq_true, Bool.not_eq_true',
    Bool.not_eq_true, Bool.and_eq_false_iff, Bool.or_eq_false_iff,
    beq_iff_eq, beq_eq_false_iff_ne, ne_eq, decide_eq_true_eq,
    decide_eq_false_iff_not, Bool.not_eq_false', Bool.not_eq_false]
  omega

/-- The Reader's encoding loop picks the first encoding that decodes. -/
theorem readLoop_eq_findSome (l : List PyEncoding) (bs : List Byte) :
    readLoop l bs = l.findSome? (fun e => decodeBytes e bs) := by
  induction l with
  | nil => rfl
  | cons e es ih =>
    cases h : decodeBytes e bs with
    | some cs => simp [readLoop, List.findSome?_cons, h]
    | none => simp [readLoop, List.findSome?_cons, h, ih]

/-- A file whose lowered extension hits neither table nor the
conventional-name test is excluded whatever stat reports. -/
theorem include_fallthrough_false (name : String) (st : Option Nat)
    (hbin : BINARY_EXTENSIONS.contains (pyLower (pathSuffix name)) = false)
    (htext : TEXT_EXTENSIONS.contains (pyLower (pathSuffix name)) = false)
    (hconv : (pyLower (pathSuffix name) == "" &&
      CONVENTIONAL_NAMES.contains (pyLower name)) = false) :
    should_include_file name st = false := by
  unfold should_include_file
  simp only [hbin, htext, hconv, Bool.false_eq_true, if_false]
  cases st with
  | none => rfl
  | some sz => exact ite_self false

/-- strLtB decides the lexicographic order on character lists. -/
theorem strLtB_iff (as bs : List Char) : strLtB as bs = true ↔ as < bs := by
  induction as generalizing bs with
  | nil =>
    cases bs with
    | nil => simp [strLtB]
    | cons b bs2 => simpa [strLtB] using List.Lex.nil
  | cons a as2 ih =>
    cases bs with
    | nil => simp [strLtB]
    | cons b bs2 =>
      simp only [strLtB, Bool.or_eq_true, Bool.and_eq_true, beq_iff_eq,
        decide_eq_true_eq]
      constructor
      · rintro (h | ⟨rfl, h⟩)
        · exact List.Lex.rel h
        · exact List.Lex.cons ((ih _).mp h)
      · intro h
        cases h with
        | cons h => exact Or.inr ⟨rfl, (ih _).mpr h⟩
        | rel h => exact Or.inl h

/-- keyLtB decides the strict order on sort keys. -/
theorem keyLtB_iff (a b : FSEntry) : keyLtB a b = true ↔ sortKey a < sortKey b := by
  rw [sortKey, sortKey, Prod.Lex.lt_iff]
  simp only [keyLtB, Bool.or_eq_true, Bool.and_eq_true, beq_iff_eq,
    decide_eq_true_eq, strLtB_iff]
  constructor
  · rintro (h | ⟨h1, h2⟩)
    · exact Or.inl h
    · exact Or.inr ⟨h1, String.lt_iff_toList_lt.mpr h2⟩
  · rintro (h | ⟨h1, h2⟩)
    · exact Or.inl h
    · exact Or.inr ⟨h1, String.lt_iff_toList_lt.mp h2⟩

/-- keyLtB failing means the keys compare the other way (weakly). -/
theorem keyLtB_false_le {a b : FSEntry} (h : keyLtB b a = false) :
    sortKey a ≤ sortKey b :=
  le_of_not_lt fun hl => by
    rw [(keyLtB_iff b a).mpr hl] at h
    exact Bool.noConfusion h

/-- Ordered insertion is a permutation with the inserted element. -/
theorem insertEntry_perm (x : FSEntry) (l : List FSEntry) :
    List.Perm (insertEntry x l) (x :: l) := by
  induction l with
  | nil => exact List.Perm.refl _
  | cons y ys ih =>
    by_cases h : keyLtB y x = true
    · simp only [insertEntry, if_pos h]
      exact List.Perm.trans (List.Perm.cons y ih) (List.Perm.swap x y ys)
    · have hI : insertEntry x (y :: ys) = x :: y :: ys := by simp [insertEntry, h]
      rw [hI]

/-- The embedded sort is a permutation of its input. -/
theorem sortEntries_perm (l : List FSEntry) : List.Perm (sortEntries l) l := by
  induction l with
  | nil => exact List.Perm.refl _
  | cons x xs ih =>
    show List.Perm (insertEntry x (sortEntries xs)) (x :: xs)
    exact List.Perm.trans (insertEntry_perm x (sortEntries xs)) (List.Perm.cons x ih)

/-- Membership is unchanged by the sort. -/
theorem mem_sortEntries {e : FSEntry} {l : List FSEntry} :
    e ∈ sortEntries l ↔ e ∈ l :=
  (sortEntries_perm l).mem_iff

/-- The embedded sort produces a list that ascends in the Python sort
key: directories before files, then case-insensitive name. -/
theorem sortEntries_sorted (l : List FSEntry) :
    (sortEntries l).Pairwise (fun a b => sortKey a ≤ sortKey b) := by
  have hins : ∀ (x : FSEntry) (m : List FSEntry),
      m.Pairwise (fun a b => sortKey a ≤ sortKey b) →
      (insertEntry x m).Pairwise (fun a b => sortKey a ≤ sortKey b) := by
    intro x m
    induction m with
    | nil => intro _; simp [insertEntry]
    | cons y ys ih =>
      intro hp
      rcases List.pairwise_cons.mp hp with ⟨hy, hys⟩
      by_cases h : keyLtB y x = true
      · simp only [insertEntry, if_pos h]
        refine List.pairwise_cons.mpr ⟨?_, ih hys⟩
        intro z hz
        rcases List.mem_cons.mp ((insertEntry_perm x ys).mem_iff.mp hz) with rfl | hz
        · exact le_of_lt ((keyLtB_iff _ _).mp h)
        · exact hy z hz
      · simp only [insertEntry, if_neg h]
        refine List.pairwise_cons.mpr ⟨?_, hp⟩
        intro z hz
        rcases List.mem_cons.mp hz with rfl | hz
        · exact keyLtB_false_le (Bool.not_eq_true _ ▸ h)
        · exact le_trans (keyLtB_false_le (Bool.not_eq_true _ ▸ h)) (hy z hz)
  induction l with
  | nil => simp [sortEntries]
  | cons x xs ih => exact hins x _ ih

/-- Inserting an element no earlier element beats puts it in front. -/
theorem insertEntry_front {x : FSEntry} {m : List FSEntry}
    (hall : ∀ z ∈ m, keyLtB z x = false) : insertEntry x m = x :: m := by
  cases m with
  | nil => rfl
  | cons z zs =>
    have := hall z (List.mem_cons_self z zs)
    simp [insertEntry, this]

/-- Filtering after an ordered insertion into a sorted list is inserting
into the filtered list (or just filtering, when the element is dropped). -/
theorem filter_insertEntry (p : FSEntry → Bool) (x : FSEntry) :
    ∀ m, m.Pairwise (fun a b => sortKey a ≤ sortKey b) →
      (insertEntry x m).filter p =
        if p x then insertEntry x (m.filter p) else m.filter p := by
  intro m
  induction m with
  | nil =>
    intro _
    by_cases hp : p x = true <;> simp [insertEntry, List.filter_cons, hp]
  | cons y ys ih =>
    intro hp
    rcases List.pairwise_cons.mp hp with ⟨hy, hys⟩
    by_cases h : keyLtB y x = true
    · by_cases hpy : p y = true <;> by_cases hpx : p x = true <;>
        simp [insertEntry, h, List.filter_cons, hpy, hpx, ih hys]
    · have hall : ∀ z ∈ (y :: ys).filter p, keyLtB z x = false := by
        intro z hz
        have hzm := List.mem_of_mem_filter hz
        rcases List.mem_cons.mp hzm with rfl | hzys
        · exact Bool.not_eq_true _ ▸ h
        · by_contra hzx
          have h1 : sortKey z < sortKey x :=
            (keyLtB_iff z x).mp (Bool.not_eq_false _ ▸ hzx)
          have h2 : sortKey x ≤ sortKey y := keyLtB_false_le (Bool.not_eq_true _ ▸ h)
          exact absurd h1 (not_lt_of_le (le_trans h2 (hy z hzys)))
      have hI : insertEntry x (y :: ys) = x :: y :: ys := by
        simp [insertEntry, h]
      by_cases hpx : p x = true
      · rw [hI, if_pos hpx, insertEntry_front hall, List.filter_cons, if_pos hpx]
      · rw [hI, if_neg hpx, List.filter_cons, if_neg hpx]

/-- The embedded sort commutes with any filter (it is stable). -/
theorem sortEntries_filter (p : FSEntry → Bool) :
    ∀ l, sortEntries (l.filter p) = (sortEntries l).filter p := by
  intro l
  induction l with
  | nil => rfl
  | cons x xs ih =>
    rw [List.filter_cons]
    by_cases hpx : p x = true
    · rw [if_pos hpx]
      show insertEntry x (sortEntries (xs.filter p)) =
        (insertEntry x (sortEntries xs)).filter p
      rw [ih, filter_insertEntry p x _ (sortEntries_sorted xs), if_pos hpx]
    · rw [if_neg hpx]
      show sortEntries (xs.filter p) = (insertEntry x (sortEntries xs)).filter p
      rw [ih, filter_insertEntry p x _ (sortEntries_sorted xs), if_neg hpx]

/-- A transformation preserving dir-ness and name preserves key order. -/
theorem keyLtB_congr (f : FSEntry → FSEntry)
    (hf : ∀ e, entryIsDir (f e) = entryIsDir e ∧ entryName (f e) = entryName e)
    (a b : FSEntry) : keyLtB (f a) (f b) = keyLtB a b := by
  unfold keyLtB sortRank
  rw [(hf a).1, (hf a).2, (hf b).1, (hf b).2]

/-- Mapping a key-preserving transformation commutes with insertion. -/
theorem insertEntry_map (f : FSEntry → FSEntry)
    (hf : ∀ e, entryIsDir (f e) = entryIsDir e ∧ entryName (f e) = entryName e)
    (x : FSEntry) : ∀ m, (insertEntry x m).map f = insertEntry (f x) (m.map f) := by
  intro m
  induction m with
  | nil => rfl
  | cons y ys ih =>
    have hc := keyLtB_congr f hf y x
    by_cases h : keyLtB y x = true
    · simp [insertEntry, h, hc, ih]
    · simp [insertEntry, h, hc]

/-- Mapping a key-preserving transformation commutes with the sort. -/
theorem sortEntries_map (f : FSEntry → FSEntry)
    (hf : ∀ e, entryIsDir (f e) = entryIsDir e ∧ entryName (f e) = entryName e) :
    ∀ l, sortEntries (l.map f) = (sortEntries l).map f := by
  intro l
  induction l with
  | nil => rfl
  | cons x xs ih =>
    show insertEntry (f x) (sortEntries (xs.map f)) =
      (insertEntry x (sortEntries xs)).map f
    rw [ih, insertEntry_map f hf]

/-- A dir-ness- and name-preserving transformation preserves the keep
test. -/
theorem keepEntry_congr (f : FSEntry → FSEntry)
    (hf : ∀ e, entryIsDir (f e) = entryIsDir e ∧ entryName (f e) = entryName e)
    (e : FSEntry) : keepEntry (f e) = keepEntry e := by
  unfold keepEntry
  rw [(hf e).1, (hf e).2]

/-- Mapping a key-preserving transformation commutes with the keep
filter. -/
theorem keepEntries_map (f : FSEntry → FSEntry)
    (hf : ∀ e, entryIsDir (f e) = entryIsDir e ∧ entryName (f e) = entryName e)
    (l : List FSEntry) : keepEntries (l.map f) = (keepEntries l).map f := by
  unfold keepEntries
  rw [List.filter_map]
  congr 1
  apply List.filter_congr
  intro e _
  exact keepEntry_congr f hf e

/-- Keeping twice is keeping once. -/
theorem keepEntries_idem (l : List FSEntry) :
    keepEntries (keepEntries l) = keepEntries l := by
  unfold keepEntries
  rw [List.filter_filter]
  apply List.filter_congr
  intro e _
  exact Bool.and_self _

/-- The keep filter commutes with any other filter. -/
theorem keepEntries_filter (q : FSEntry → Bool) (l : List FSEntry) :
    keepEntries (l.filter q) = (keepEntries l).filter q := by
  unfold keepEntries
  rw [List.filter_filter, List.filter_filter]
  apply List.filter_congr
  intro e _
  exact Bool.and_comm _ _

/-! Claim theorems. -/

/-- C1 (code_bug evaluation): contrary to the claim and to the spec's
design intent, a file with no recognized extension and no conventional
name is excluded by should_include_file even when its stat succeeds with
a size of 1 KiB, exactly as it is at 15 MiB or on a failed stat: the
function's final statement returns False, making the 10 MiB size check
dead code. -/
theorem C1_unknown_extension_small_file_is_excluded :
    should_include_file "data" (some 1024) = false ∧
    should_include_file "data" (some (15 * 1024 * 1024)) = false ∧
    should_include_file "data" none = false := by
  refine ⟨?_, ?_, by decide⟩
  · exact include_fallthrough_false "data" (some 1024) (by decide) (by decide) (by decide)
  · exact include_fallthrough_false "data" (some (15 * 1024 * 1024))
      (by decide) (by decide) (by decide)

/-- C7: the Sanitizer keeps exactly the characters that are not control
characters other than tab, line-feed and carriage-return (the null byte
being a control character), preserving order, and it is idempotent. -/
theorem C7_sanitizer_exact_and_idempotent (s : String) :
    sanitize_xml_content s = String.mk (s.data.filter sanitizerKeeps) ∧
    sanitize_xml_content (sanitize_xml_content s) = sanitize_xml_content s := by
  have key : ∀ t : String,
      sanitize_xml_content t = String.mk (t.data.filter sanitizerKeeps) := by
    intro t
    by_cases h : t = ""
    · subst h; rfl
    · simp only [sanitize_xml_content, if_neg h, List.filter_filter]
      congr 1
      apply List.filter_congr
      intro c _
      rw [Bool.and_comm]
      exact sanitize_keep_pointwise c
  refine ⟨key s, ?_⟩
  rw [key s, key (String.mk (s.data.filter sanitizerKeeps))]
  congr 1
  rw [List.filter_filter]
  apply List.filter_congr
  intro c _
  exact Bool.and_self _

/-- C10: the extensionless dotfiles named in TEXT_EXTENSIONS are
nevertheless excluded, for any stat outcome: their pathlib suffix is the
empty string (the leading dot belongs to the stem), and their names are
not among the conventional extensionless names. -/
theorem C10_dotfiles_excluded :
    (∀ st : Option Nat,
      should_include_file ".gitignore" st = false ∧
      should_include_file ".dockerignore" st = false ∧
      should_include_file ".editorconfig" st = false ∧
      should_include_file ".env" st = false) ∧
    (pathSuffix ".gitignore" = "" ∧ pathSuffix ".dockerignore" = "" ∧
     pathSuffix ".editorconfig" = "" ∧ pathSuffix ".env" = "") ∧
    (TEXT_EXTENSIONS.contains ".gitignore" = true ∧
     TEXT_EXTENSIONS.contains ".dockerignore" = true ∧
     TEXT_EXTENSIONS.contains ".editorconfig" = true ∧
     TEXT_EXTENSIONS.contains ".env" = true) ∧
    (CONVENTIONAL_NAMES.contains (pyLower ".gitignore") = false ∧
     CONVENTIONAL_NAMES.contains (pyLower ".dockerignore") = false ∧
     CONVENTIONAL_NAMES.contains (pyLower ".editorconfig") = false ∧
     CONVENTIONAL_NAMES.contains (pyLower ".env") = false) := by
  refine ⟨fun st => ?_, by decide, by decide, by decide⟩
  exact ⟨include_fallthrough_false _ st (by decide) (by decide) (by decide),
    include_fallthrough_false _ st (by decide) (by decide) (by decide),
    include_fallthrough_false _ st (by decide) (by decide) (by decide),
    include_fallthrough_false _ st (by decide) (by decide) (by decide)⟩

/-- C3: the Reader returns the sanitized text of the first candidate
encoding that decodes the bytes without error, the fixed diagnostic when
every candidate fails, and a diagnostic embedding the error description
on any other I/O failure — the behaviour of the spec-side model; its
totality embeds that it never raises to its caller. -/
theorem C3_reader_refines_spec (f : FileNode) :
    read_file_content f = readerSpecModel f := by
  cases h : f.data with
  | error msg => simp [read_file_content, readerSpecModel, h]
  | ok bs => simp [read_file_content, readerSpecModel, h, readLoop_eq_findSome]

/-- C9: because latin-1 (the third candidate) decodes every byte
sequence, the all-encodings-failed branch is unreachable: whenever the
bytes can be read at all, the encoding loop succeeds and the Reader
returns decoded, sanitized text, never the fixed undecodable
diagnostic. -/
theorem C9_reader_never_hits_undecodable_branch (name : String) (st : Option Nat)
    (bs : List Byte) :
    ∃ cs, readLoop readerEncodings bs = some cs ∧
      read_file_content ⟨name, st, Except.ok bs⟩ =
        sanitize_xml_content (String.mk (univNewlines cs)) := by
  have hl : ∃ cs, readLoop readerEncodings bs = some cs := by
    cases h1 : utf8Decode bs with
    | some cs => exact ⟨cs, by simp [readerEncodings, readLoop, decodeBytes, h1]⟩
    | none =>
      cases h2 : utf8Decode (stripBom bs) with
      | some cs => exact ⟨cs, by simp [readerEncodings, readLoop, decodeBytes, h1, h2]⟩
      | none =>
        exact ⟨latin1Decode bs, by simp [readerEncodings, readLoop, decodeBytes, h1, h2]⟩
  obtain ⟨cs, hcs⟩ := hl
  refine ⟨cs, hcs, ?_⟩
  have hu : read_file_content ⟨name, st, Except.ok bs⟩ =
      match readLoop readerEncodings bs with
      | some cs => sanitize_xml_content (String.mk (univNewlines cs))
      | none => "[Error: Unable to decode file with supported encodings]" := rfl
  rw [hu, hcs]

/-- Every file of the list gets its header paragraph in the Word loop,
whatever the embedding oracle does on any file. -/
theorem wordGo_mem_header (emb : String → Option String) :
    ∀ (idx : Nat) (files : List (String × String)) (rel content : String),
      (rel, content) ∈ files →
      DocxBlock.para ("File: " ++ rel) ∈ wordGo emb idx files := by
  intro idx files
  induction files generalizing idx with
  | nil => intro rel content h; cases h
  | cons p rest ih =>
    intro rel content h
    obtain ⟨r, c⟩ := p
    rcases List.mem_cons.mp h with heq | hmem
    · obtain ⟨h1, h2⟩ := Prod.mk.injEq .. ▸ heq
      subst h1
      simp [wordGo]
    · have := ih (idx + 1) rel content hmem
      simp only [wordGo]
      exact List.mem_append_right _ this

/-- A file whose embedding fails gets the bracketed error paragraph in
the Word loop: the per-file try/except substitutes and continues. -/
theorem wordGo_mem_error (emb : String → Option String) :
    ∀ (idx : Nat) (files : List (String × String)) (rel content e : String),
      (rel, content) ∈ files → emb content = some e →
      DocxBlock.para ("[Error adding content: " ++ e ++ "]") ∈ wordGo emb idx files := by
  intro idx files
  induction files generalizing idx with
  | nil => intro rel content e h; cases h
  | cons p rest ih =>
    intro rel content e h hemb
    obtain ⟨r, c⟩ := p
    rcases List.mem_cons.mp h with heq | hmem
    · obtain ⟨h1, h2⟩ := Prod.mk.injEq .. ▸ heq
      subst h1; subst h2
      simp [wordGo, hemb]
    · have := ih (idx + 1) rel content e hmem hemb
      simp only [wordGo]
      exact List.mem_append_right _ this

/-- A file whose embedding fails makes the whole PDF loop return an
error: there is no per-file handler in generate_pdf_document. -/
theorem pdfGo_error_of_failure (emb : String → Option String) :
    ∀ (idx : Nat) (files : List (String × String)) (rel content e : String),
      (rel, content) ∈ files → emb (escapeMarkup content) = some e →
      ∃ msg, pdfGo emb idx files = Except.error msg := by
  intro idx files
  induction files generalizing idx with
  | nil => intro rel content e h; cases h
  | cons p rest ih =>
    intro rel content e h hemb
    obtain ⟨r, c⟩ := p
    rcases List.mem_cons.mp h with heq | hmem
    · obtain ⟨h1, h2⟩ := Prod.mk.injEq .. ▸ heq
      subst h1; subst h2
      refine ⟨e, ?_⟩
      simp [pdfGo, hemb]
    · cases hc : emb (escapeMarkup c) with
      | some m => exact ⟨m, by simp [pdfGo, hc]⟩
      | none =>
        obtain ⟨msg, hmsg⟩ := ih (idx + 1) rel content e hmem hemb
        refine ⟨msg, ?_⟩
        simp only [pdfGo, hc, hmsg]
        rfl

/-- C2 (counterexample): with an embedding oracle that fails on the one
collected file, the PDF exporter's per-file loop returns an error — the
raised exception propagates and aborts the whole run, with no inline
diagnostic substituted, contradicting the claim that both exporters
catch per-file embedding errors and continue. -/
theorem C2_pdf_embedding_error_aborts_run :
    pdfFileSections (fun _ => some "boom") [("a.txt", "x")] = Except.error "boom" := rfl

/-- C2 (amended): the Word exporter catches a per-file embedding error,
substitutes the inline bracketed diagnostic paragraph and continues, so
every file of the list still receives its header; the PDF exporter has
no per-file catch, so a single file whose embedding raises makes the
whole PDF build return that error. -/
theorem C2_amended_word_catches_pdf_propagates
    (emb : String → Option String) (files : List (String × String)) :
    (∀ rel content, (rel, content) ∈ files →
      DocxBlock.para ("File: " ++ rel) ∈ wordFileSections emb files) ∧
    (∀ rel content e, (rel, content) ∈ files → emb content = some e →
      DocxBlock.para ("[Error adding content: " ++ e ++ "]") ∈ wordFileSections emb files) ∧
    (∀ rel content e, (rel, content) ∈ files → emb (escapeMarkup content) = some e →
      ∃ msg, pdfFileSections emb files = Except.error msg) :=
  ⟨fun rel content h => wordGo_mem_header emb 1 files rel content h,
   fun rel content e h he => wordGo_mem_error emb 1 files rel content e h he,
   fun rel content e h he => pdfGo_error_of_failure emb 1 files rel content e h he⟩

/-- An entry that fails to enumerate contributes nothing to the
collection: the recursive call's own try/except turns the error into an
empty list. -/
theorem collectEntry_of_not_accessOk {e : FSEntry} (h : entryAccessOk e = false) :
    ∀ pre, collectEntry e pre = [] := by
  intro pre
  cases e with
  | file f => simp [entryAccessOk] at h
  | dir n acc ch =>
    cases acc with
    | ok => simp [entryAccessOk] at h
    | permDenied => simp [collectEntry]
    | err m => simp [collectEntry]

/-- Dropping entries that fail to enumerate leaves the collection loop's
output unchanged. -/
theorem collectItems_filter_accessOk :
    ∀ (items : List FSEntry) (pre : List String),
      collectItems (items.filter entryAccessOk) pre = collectItems items pre := by
  intro items
  induction items with
  | nil => intro pre; rfl
  | cons e rest ih =>
    intro pre
    rw [List.filter_cons]
    by_cases h : entryAccessOk e = true
    · rw [if_pos h]
      show collectItems (e :: rest.filter entryAccessOk) pre = _
      have h1 : collectItems (e :: rest.filter entryAccessOk) pre =
          collectEntry e pre ++ collectItems (rest.filter entryAccessOk) pre := by
        simp [collectItems]
      have h2 : collectItems (e :: rest) pre =
          collectEntry e pre ++ collectItems rest pre := by
        simp [collectItems]
      rw [h1, h2, ih]
    · rw [if_neg h]
      have h2 : collectItems (e :: rest) pre =
          collectEntry e pre ++ collectItems rest pre := by
        simp [collectItems]
      rw [h2, collectEntry_of_not_accessOk (Bool.not_eq_true _ ▸ h), ih, List.nil_append]

/-- Rendering a sibling list is unchanged by an entrywise transformation
that renders identically. -/
theorem treeItems_congr (f : FSEntry → FSEntry) :
    ∀ (items : List FSEntry) (pre : String),
      (∀ e ∈ items, ∀ p l, treeEntry (f e) p l = treeEntry e p l) →
      treeItems (items.map f) pre = treeItems items pre := by
  intro items
  induction items with
  | nil => intro pre _; rfl
  | cons e rest ih =>
    intro pre h
    cases rest with
    | nil =>
      have h1 : treeItems [f e] pre = treeEntry (f e) pre true := by simp [treeItems]
      have h2 : treeItems [e] pre = treeEntry e pre true := by simp [treeItems]
      show treeItems [f e] pre = treeItems [e] pre
      rw [h1, h2, h e (List.mem_singleton.mpr rfl)]
    | cons e2 rest2 =>
      have h1 : treeItems (f e :: f e2 :: rest2.map f) pre =
          treeEntry (f e) pre false ++ treeItems (f e2 :: rest2.map f) pre := by
        simp [treeItems]
      have h2 : treeItems (e :: e2 :: rest2) pre =
          treeEntry e pre false ++ treeItems (e2 :: rest2) pre := by
        simp [treeItems]
      show treeItems (f e :: f e2 :: rest2.map f) pre = _
      rw [h1, h2, h e (by simp)]
      congr 1
      have hm : f e2 :: rest2.map f = (e2 :: rest2).map f := by simp
      rw [hm]
      exact ih pre (fun e3 he3 => h e3 (List.mem_cons_of_mem _ he3))

/-- Collecting a sibling list is unchanged by an entrywise transformation
that collects identically. -/
theorem collectItems_congr (f : FSEntry → FSEntry) :
    ∀ (items : List FSEntry) (pre : List String),
      (∀ e ∈ items, ∀ p, collectEntry (f e) p = collectEntry e p) →
      collectItems (items.map f) pre = collectItems items pre := by
  intro items
  induction items with
  | nil => intro pre _; rfl
  | cons e rest ih =>
    intro pre h
    have h1 : collectItems (f e :: rest.map f) pre =
        collectEntry (f e) pre ++ collectItems (rest.map f) pre := by
      simp [collectItems]
    have h2 : collectItems (e :: rest) pre =
        collectEntry e pre ++ collectItems rest pre := by
      simp [collectItems]
    show collectItems (f e :: rest.map f) pre = _
    rw [h1, h2, h e (by simp), ih pre (fun e3 he3 => h e3 (List.mem_cons_of_mem _ he3))]

/-- pruneList is the keep filter followed by the recursive prune. -/
theorem pruneList_eq : ∀ l : List FSEntry,
    pruneList l = (l.filter keepEntry).map pruneEntry := by
  intro l
  induction l with
  | nil => rfl
  | cons e rest ih =>
    have h1 : pruneList (e :: rest) =
        (if keepEntry e then [pruneEntry e] else []) ++ pruneList rest := by
      simp [pruneList]
    rw [h1, List.filter_cons]
    by_cases h : keepEntry e = true
    · rw [if_pos h, if_pos h, ih]
      rfl
    · rw [if_neg h, if_neg h, ih]
      rfl

/-- Pruning preserves dir-ness and name. -/
theorem pruneEntry_preserves : ∀ e : FSEntry,
    entryIsDir (pruneEntry e) = entryIsDir e ∧ entryName (pruneEntry e) = entryName e := by
  intro e
  cases e with
  | file f => exact ⟨by simp [pruneEntry], by simp [pruneEntry]⟩
  | dir n acc ch =>
    constructor
    · have h2 : pruneEntry (FSEntry.dir n acc ch) = FSEntry.dir n acc (pruneList ch) := by
        simp [pruneEntry]
      rw [h2]
      rfl
    · have h2 : pruneEntry (FSEntry.dir n acc ch) = FSEntry.dir n acc (pruneList ch) := by
        simp [pruneEntry]
      rw [h2]
      rfl

/-- The items the traversals see below a pruned directory are the pruned
images of the items they see below the original. -/
theorem keep_sort_prune (ch : List FSEntry) :
    keepEntries (sortEntries (pruneList ch)) =
      (keepEntries (sortEntries ch)).map pruneEntry := by
  rw [pruneList_eq, sortEntries_map pruneEntry pruneEntry_preserves,
    keepEntries_map pruneEntry pruneEntry_preserves]
  congr 1
  rw [sortEntries_filter]
  show ((sortEntries ch).filter keepEntry).filter keepEntry =
    (sortEntries ch).filter keepEntry
  rw [List.filter_filter]
  apply List.filter_congr
  intro e _
  exact Bool.and_self _

/-- mapFilesList is List.map of the entry transformation. -/
theorem mapFilesList_eq (g : FileNode → FileNode) : ∀ l : List FSEntry,
    mapFilesList g l = l.map (mapFilesEntry g) := by
  intro l
  induction l with
  | nil => rfl
  | cons e rest ih =>
    have h1 : mapFilesList g (e :: rest) = mapFilesEntry g e :: mapFilesList g rest := by
      simp [mapFilesList]
    rw [h1, ih]
    rfl

/-- A name-preserving file transformation preserves dir-ness and name of
every entry. -/
theorem mapFilesEntry_preserves (g : FileNode → FileNode)
    (hg : ∀ f2 : FileNode, (g f2).name = f2.name) : ∀ e : FSEntry,
    entryIsDir (mapFilesEntry g e) = entryIsDir e ∧
    entryName (mapFilesEntry g e) = entryName e := by
  intro e
  cases e with
  | file f =>
    have h2 : mapFilesEntry g (FSEntry.file f) = FSEntry.file (g f) := by
      simp [mapFilesEntry]
    refine ⟨by rw [h2]; rfl, ?_⟩
    rw [h2]
    exact hg f
  | dir n acc ch =>
    have h2 : mapFilesEntry g (FSEntry.dir n acc ch) =
        FSEntry.dir n acc (mapFilesList g ch) := by
      simp [mapFilesEntry]
    exact ⟨by rw [h2]; rfl, by rw [h2]; rfl⟩

/-- The items below a directory after a name-preserving file
transformation are the transformed images of the original items. -/
theorem keep_sort_mapfiles (g : FileNode → FileNode)
    (hg : ∀ f2 : FileNode, (g f2).name = f2.name) (ch : List FSEntry) :
    keepEntries (sortEntries (mapFilesList g ch)) =
      (keepEntries (sortEntries ch)).map (mapFilesEntry g) := by
  rw [mapFilesList_eq, sortEntries_map _ (mapFilesEntry_preserves g hg),
    keepEntries_map _ (mapFilesEntry_preserves g hg)]

/-- Every entry has positive size (for the bounded inductions below). -/
theorem sizeOf_entry_pos (e : FSEntry) : 0 < sizeOf e := by
  cases e <;> simp_arith

/-- Members of the kept, sorted items of a directory are members of its
children, hence smaller. -/
theorem mem_keep_sort_size {e2 : FSEntry} {ch : List FSEntry}
    (h : e2 ∈ keepEntries (sortEntries ch)) : sizeOf e2 < sizeOf ch :=
  List.sizeOf_lt_of_mem (mem_sortEntries.mp (List.mem_of_mem_filter h))

/-- Tree rendering ignores the subtrees of skipped directories: pruning
them changes no line (entry level, by bounded induction on size). -/
theorem treeEntry_prune_aux : ∀ (N : Nat) (e : FSEntry), sizeOf e ≤ N →
    ∀ pre isLast, treeEntry (pruneEntry e) pre isLast = treeEntry e pre isLast := by
  intro N
  induction N with
  | zero =>
    intro e he
    exact absurd he (by simpa using Nat.not_le_of_lt (sizeOf_entry_pos e))
  | succ N ih =>
    intro e he pre isLast
    cases e with
    | file f => simp [pruneEntry]
    | dir n acc ch =>
      have hP : pruneEntry (FSEntry.dir n acc ch) = FSEntry.dir n acc (pruneList ch) := by
        simp [pruneEntry]
      rw [hP]
      cases acc with
      | permDenied => simp [treeEntry]
      | err m => simp [treeEntry]
      | ok =>
        have h1 : ∀ ch2 : List FSEntry,
            treeEntry (FSEntry.dir n DirAccess.ok ch2) pre isLast =
              (pre ++ connector isLast ++ (n ++ "/")) ::
                treeItems (keepEntries (sortEntries ch2)) (pre ++ prefixExt isLast) := by
          intro ch2; simp [treeEntry]
        rw [h1, h1]
        congr 1
        rw [keep_sort_prune]
        apply treeItems_congr
        intro e2 he2 p l
        apply ih
        have hlt := mem_keep_sort_size he2
        have hsz : sizeOf (FSEntry.dir n DirAccess.ok ch) =
            1 + sizeOf n + sizeOf DirAccess.ok + sizeOf ch := by
          simp_arith
        omega

/-- Collection ignores the subtrees of skipped directories: pruning them
changes no collected pair (entry level, by bounded induction on size). -/
theorem collectEntry_prune_aux : ∀ (N : Nat) (e : FSEntry), sizeOf e ≤ N →
    ∀ pre, collectEntry (pruneEntry e) pre = collectEntry e pre := by
  intro N
  induction N with
  | zero =>
    intro e he
    exact absurd he (by simpa using Nat.not_le_of_lt (sizeOf_entry_pos e))
  | succ N ih =>
    intro e he pre
    cases e with
    | file f => simp [pruneEntry]
    | dir n acc ch =>
      have hP : pruneEntry (FSEntry.dir n acc ch) = FSEntry.dir n acc (pruneList ch) := by
        simp [pruneEntry]
      rw [hP]
      cases acc with
      | permDenied => simp [collectEntry]
      | err m => simp [collectEntry]
      | ok =>
        have h1 : ∀ ch2 : List FSEntry,
            collectEntry (FSEntry.dir n DirAccess.ok ch2) pre =
              collectItems (keepEntries (sortEntries ch2)) (pre ++ [n]) := by
          intro ch2; simp [collectEntry]
        rw [h1, h1]
        rw [keep_sort_prune]
        apply collectItems_congr
        intro e2 he2 p
        apply ih
        have hlt := mem_keep_sort_size he2
        have hsz : sizeOf (FSEntry.dir n DirAccess.ok ch) =
            1 + sizeOf n + sizeOf DirAccess.ok + sizeOf ch := by
          simp_arith
        omega

/-- Tree rendering is blind to file stats and contents: a name-preserving
transformation of every file node changes no line (entry level). -/
theorem treeEntry_mapfiles_aux (g : FileNode → FileNode)
    (hg : ∀ f2 : FileNode, (g f2).name = f2.name) :
    ∀ (N : Nat) (e : FSEntry), sizeOf e ≤ N →
      ∀ pre isLast, treeEntry (mapFilesEntry g e) pre isLast = treeEntry e pre isLast := by
  intro N
  induction N with
  | zero =>
    intro e he
    exact absurd he (by simpa using Nat.not_le_of_lt (sizeOf_entry_pos e))
  | succ N ih =>
    intro e he pre isLast
    cases e with
    | file f =>
      have hM : mapFilesEntry g (FSEntry.file f) = FSEntry.file (g f) := by
        simp [mapFilesEntry]
      rw [hM]
      have h1 : ∀ f2 : FileNode, treeEntry (FSEntry.file f2) pre isLast =
          [pre ++ connector isLast ++ f2.name] := by
        intro f2; simp [treeEntry]
      rw [h1, h1, hg f]
    | dir n acc ch =>
      have hM : mapFilesEntry g (FSEntry.dir n acc ch) =
          FSEntry.dir n acc (mapFilesList g ch) := by
        simp [mapFilesEntry]
      rw [hM]
      cases acc with
      | permDenied => simp [treeEntry]
      | err m => simp [treeEntry]
      | ok =>
        have h1 : ∀ ch2 : List FSEntry,
            treeEntry (FSEntry.dir n DirAccess.ok ch2) pre isLast =
              (pre ++ connector isLast ++ (n ++ "/")) ::
                treeItems (keepEntries (sortEntries ch2)) (pre ++ prefixExt isLast) := by
          intro ch2; simp [treeEntry]
        rw [h1, h1]
        congr 1
        rw [keep_sort_mapfiles g hg]
        apply treeItems_congr
        intro e2 he2 p l
        apply ih
        have hlt := mem_keep_sort_size he2
        have hsz : sizeOf (FSEntry.dir n DirAccess.ok ch) =
            1 + sizeOf n + sizeOf DirAccess.ok + sizeOf ch := by
          simp_arith
        omega

/-- startsWithDot reports whether the first character is a dot. -/
theorem startsWithDot_iff (s : String) :
    startsWithDot s = true ↔ s.data.head? = some '.' := by
  unfold startsWithDot
  cases hd : s.data with
  | nil => simp
  | cons c rest => simp [beq_iff_eq]

/-- C4: a directory whose enumeration raises is rendered by the Tree
Builder as a single marker line — permission errors as a bracketed
permission-denied line, other errors as a bracketed error line — instead
of descending (at the scan root, and below a directory line inside a
larger tree); the Content Collector turns the same errors into an empty
contribution with no marker entry, and dropping every unenumerable
subtree leaves its output unchanged (the silent drop); totality of the
embedded traversals captures that neither propagates the exception. -/
theorem C4_enumeration_error_markers_and_silent_drop :
    (∀ (ch : List FSEntry) (pre : String),
      generate_tree_structure DirAccess.permDenied ch pre =
        [pre ++ "[Permission Denied]"] ∧
      ∀ m, generate_tree_structure (DirAccess.err m) ch pre =
        [pre ++ ("[Error: " ++ m ++ "]")]) ∧
    (∀ (n : String) (sub : List FSEntry) (pre : String) (isLast : Bool),
      treeEntry (FSEntry.dir n DirAccess.permDenied sub) pre isLast =
        [pre ++ connector isLast ++ (n ++ "/"),
         pre ++ prefixExt isLast ++ "[Permission Denied]"] ∧
      ∀ m, treeEntry (FSEntry.dir n (DirAccess.err m) sub) pre isLast =
        [pre ++ connector isLast ++ (n ++ "/"),
         pre ++ prefixExt isLast ++ ("[Error: " ++ m ++ "]")]) ∧
    (∀ ch : List FSEntry,
      collect_file_contents DirAccess.permDenied ch = [] ∧
      ∀ m, collect_file_contents (DirAccess.err m) ch = []) ∧
    (∀ (n : String) (sub : List FSEntry) (pre : List String),
      collectEntry (FSEntry.dir n DirAccess.permDenied sub) pre = [] ∧
      ∀ m, collectEntry (FSEntry.dir n (DirAccess.err m) sub) pre = []) ∧
    (∀ (ch : List FSEntry) (pre : List String),
      collectItems (keepEntries (sortEntries (ch.filter entryAccessOk))) pre =
        collectItems (keepEntries (sortEntries ch)) pre) := by
  refine ⟨fun ch pre => ⟨rfl, fun m => rfl⟩,
    fun n sub pre isLast => ⟨by simp [treeEntry], fun m => by simp [treeEntry]⟩,
    fun ch => ⟨rfl, fun m => rfl⟩,
    fun n sub pre => ⟨by simp [collectEntry], fun m => by simp [collectEntry]⟩,
    fun ch pre => ?_⟩
  rw [sortEntries_filter, keepEntries_filter, collectItems_filter_accessOk]

/-- Witness for the amended C2 theorem at a concrete oracle and file
list. -/
theorem C2_amended_witness :
    DocxBlock.para ("File: " ++ "a.txt") ∈
      wordFileSections (fun _ => some "boom") [("a.txt", "x")] ∧
    DocxBlock.para ("[Error adding content: " ++ "boom" ++ "]") ∈
      wordFileSections (fun _ => some "boom") [("a.txt", "x")] ∧
    ∃ msg, pdfFileSections (fun _ => some "boom") [("a.txt", "x")] = Except.error msg := by
  have h := C2_amended_word_catches_pdf_propagates (fun _ => some "boom") [("a.txt", "x")]
  exact ⟨h.1 "a.txt" "x" (List.mem_singleton.mpr rfl),
         h.2.1 "a.txt" "x" "boom" (List.mem_singleton.mpr rfl) rfl,
         h.2.2 "a.txt" "x" "boom" (List.mem_singleton.mpr rfl) rfl⟩

/-- C6: a directory is skipped exactly when its name is in the fixed
skip-list or starts with a dot; and both traversals are blind to skipped
directories and everything below them: removing every skipped directory
together with its whole subtree (recursively) changes neither the tree
lines nor the collected contents. -/
theorem C6_skip_rule_and_no_descent :
    (∀ n : String, should_skip_directory n = true ↔
      (n ∈ SKIP_DIRECTORIES ∨ n.data.head? = some '.')) ∧
    (∀ (ch : List FSEntry) (pre : String),
      generate_tree_structure DirAccess.ok (pruneList ch) pre =
        generate_tree_structure DirAccess.ok ch pre) ∧
    (∀ ch : List FSEntry,
      collect_file_contents DirAccess.ok (pruneList ch) =
        collect_file_contents DirAccess.ok ch) := by
  refine ⟨?_, ?_, ?_⟩
  · intro n
    unfold should_skip_directory
    rw [Bool.or_eq_true, startsWithDot_iff]
    constructor
    · rintro (h | h)
      · exact Or.inl (List.elem_iff.mp h)
      · exact Or.inr h
    · rintro (h | h)
      · exact Or.inl (List.elem_iff.mpr h)
      · exact Or.inr h
  · intro ch pre
    show treeItems (keepEntries (sortEntries (pruneList ch))) pre =
      treeItems (keepEntries (sortEntries ch)) pre
    rw [keep_sort_prune]
    apply treeItems_congr
    intro e2 he2 p l
    exact treeEntry_prune_aux (sizeOf ch) e2 (le_of_lt (mem_keep_sort_size he2)) p l
  · intro ch
    show collectItems (keepEntries (sortEntries (pruneList ch))) [] =
      collectItems (keepEntries (sortEntries ch)) []
    rw [keep_sort_prune]
    apply collectItems_congr
    intro e2 he2 p
    exact collectEntry_prune_aux (sizeOf ch) e2 (le_of_lt (mem_keep_sort_size he2)) p

/-- Aligning decorated lines with undecorated labels across a sibling
list, given the alignment for each entry. -/
theorem forall2_items {R : String → String → Prop} :
    ∀ (items : List FSEntry) (pre : String),
      (∀ e ∈ items, ∀ isLast, List.Forall₂ R (treeEntry e pre isLast) (dfsLabelEntry e)) →
      List.Forall₂ R (treeItems items pre) (dfsLabelItems items) := by
  intro items
  induction items with
  | nil =>
    intro pre _
    have h1 : treeItems [] pre = [] := by simp [treeItems]
    have h2 : dfsLabelItems [] = [] := by simp [dfsLabelItems]
    rw [h1, h2]
    exact List.Forall₂.nil
  | cons e rest ih =>
    intro pre h
    cases rest with
    | nil =>
      have h1 : treeItems [e] pre = treeEntry e pre true := by simp [treeItems]
      have h2 : dfsLabelItems [e] = dfsLabelEntry e ++ dfsLabelItems [] := by
        simp [dfsLabelItems]
      have h3 : dfsLabelItems ([] : List FSEntry) = [] := by simp [dfsLabelItems]
      rw [h1, h2, h3, List.append_nil]
      exact h e (by simp) true
    | cons e2 rest2 =>
      have h1 : treeItems (e :: e2 :: rest2) pre =
          treeEntry e pre false ++ treeItems (e2 :: rest2) pre := by simp [treeItems]
      have h2 : dfsLabelItems (e :: e2 :: rest2) =
          dfsLabelEntry e ++ dfsLabelItems (e2 :: rest2) := by simp [dfsLabelItems]
      rw [h1, h2]
      exact List.rel_append (h e (by simp) false)
        (ih pre (fun e3 he3 isl => h e3 (List.mem_cons_of_mem _ he3) isl))

/-- Each entry's decorated tree lines align one-to-one, in order, with
its undecorated depth-first pre-order labels: every line extends its
label by a decoration prefix (bounded induction on size). -/
theorem forall2_tree_labels_aux : ∀ (N : Nat) (e : FSEntry), sizeOf e ≤ N →
    ∀ pre isLast, List.Forall₂ (fun line lbl => ∃ p, line = p ++ lbl)
      (treeEntry e pre isLast) (dfsLabelEntry e) := by
  intro N
  induction N with
  | zero =>
    intro e he
    exact absurd he (by simpa using Nat.not_le_of_lt (sizeOf_entry_pos e))
  | succ N ih =>
    intro e he pre isLast
    cases e with
    | file f =>
      have h1 : treeEntry (FSEntry.file f) pre isLast =
          [pre ++ connector isLast ++ f.name] := by simp [treeEntry]
      have h2 : dfsLabelEntry (FSEntry.file f) = [f.name] := by simp [dfsLabelEntry]
      rw [h1, h2]
      exact List.Forall₂.cons ⟨pre ++ connector isLast, rfl⟩ List.Forall₂.nil
    | dir n acc ch =>
      cases acc with
      | permDenied =>
        have h1 : treeEntry (FSEntry.dir n DirAccess.permDenied ch) pre isLast =
            [pre ++ connector isLast ++ (n ++ "/"),
             pre ++ prefixExt isLast ++ "[Permission Denied]"] := by simp [treeEntry]
        have h2 : dfsLabelEntry (FSEntry.dir n DirAccess.permDenied ch) =
            [n ++ "/", "[Permission Denied]"] := by simp [dfsLabelEntry]
        rw [h1, h2]
        exact List.Forall₂.cons ⟨pre ++ connector isLast, rfl⟩
          (List.Forall₂.cons ⟨pre ++ prefixExt isLast, rfl⟩ List.Forall₂.nil)
      | err m =>
        have h1 : treeEntry (FSEntry.dir n (DirAccess.err m) ch) pre isLast =
            [pre ++ connector isLast ++ (n ++ "/"),
             pre ++ prefixExt isLast ++ ("[Error: " ++ m ++ "]")] := by simp [treeEntry]
        have h2 : dfsLabelEntry (FSEntry.dir n (DirAccess.err m) ch) =
            [n ++ "/", "[Error: " ++ m ++ "]"] := by simp [dfsLabelEntry]
        rw [h1, h2]
        exact List.Forall₂.cons ⟨pre ++ connector isLast, rfl⟩
          (List.Forall₂.cons ⟨pre ++ prefixExt isLast, rfl⟩ List.Forall₂.nil)
      | ok =>
        have h1 : treeEntry (FSEntry.dir n DirAccess.ok ch) pre isLast =
            (pre ++ connector isLast ++ (n ++ "/")) ::
              treeItems (keepEntries (sortEntries ch)) (pre ++ prefixExt isLast) := by
          simp [treeEntry]
        have h2 : dfsLabelEntry (FSEntry.dir n DirAccess.ok ch) =
            (n ++ "/") :: dfsLabelItems (keepEntries (sortEntries ch)) := by
          simp [dfsLabelEntry]
        rw [h1, h2]
        refine List.Forall₂.cons ⟨pre ++ connector isLast, rfl⟩ ?_
        apply forall2_items
        intro e2 he2 isl
        apply ih
        · have hlt := mem_keep_sort_size he2
          have hsz : sizeOf (FSEntry.dir n DirAccess.ok ch) =
              1 + sizeOf n + sizeOf DirAccess.ok + sizeOf ch := by
            simp_arith
          omega

/-- Every entry of a sibling list renders inside the list's rendering,
with some last-item flag. -/
theorem treeEntry_subset_treeItems :
    ∀ (items : List FSEntry) (pre : String) (e : FSEntry), e ∈ items →
      ∃ isLast : Bool, ∀ x ∈ treeEntry e pre isLast, x ∈ treeItems items pre := by
  intro items
  induction items with
  | nil => intro pre e h; cases h
  | cons e0 rest ih =>
    intro pre e h
    cases rest with
    | nil =>
      have h1 : treeItems [e0] pre = treeEntry e0 pre true := by simp [treeItems]
      have heq : e = e0 := List.mem_singleton.mp h
      exact ⟨true, fun x hx => by rw [h1]; exact heq ▸ hx⟩
    | cons e1 rest2 =>
      have h1 : treeItems (e0 :: e1 :: rest2) pre =
          treeEntry e0 pre false ++ treeItems (e1 :: rest2) pre := by simp [treeItems]
      rcases List.mem_cons.mp h with heq | hmem
      · exact ⟨false, fun x hx => by rw [h1]; exact List.mem_append_left _ (heq ▸ hx)⟩
      · obtain ⟨l, hsub⟩ := ih pre e hmem
        exact ⟨l, fun x hx => by rw [h1]; exact List.mem_append_right _ (hsub x hx)⟩

/-- C8: the Tree Builder prunes by the directory-skip rule only.  First,
the tree is blind to file stats and contents, so file-inclusion rules
cannot prune it: transforming every file's stat and data (keeping names)
leaves all lines unchanged.  Second, the decorated lines correspond
one-to-one, in order, with the undecorated depth-first pre-order labels
of the non-skipped descendants (each line extends its label by a
decoration prefix) — the tree covers exactly that pre-order.  Third,
every file reachable without crossing a skipped directory or a failed
enumeration — whether its content would be included or not — has a line
in the tree ending in its name. -/
theorem C8_tree_lists_all_files_in_preorder :
    (∀ g : FileNode → FileNode, (∀ f2 : FileNode, (g f2).name = f2.name) →
      ∀ (acc : DirAccess) (ch : List FSEntry) (pre : String),
        generate_tree_structure acc (mapFilesList g ch) pre =
          generate_tree_structure acc ch pre) ∧
    (∀ (acc : DirAccess) (ch : List FSEntry) (pre : String),
      List.Forall₂ (fun line lbl => ∃ p, line = p ++ lbl)
        (generate_tree_structure acc ch pre) (dfsLabels acc ch)) ∧
    (∀ (ch : List FSEntry) (nm : String) (pre : String),
      FileReach ch nm →
      ∃ line ∈ generate_tree_structure DirAccess.ok ch pre, ∃ p, line = p ++ nm) := by
  refine ⟨?_, ?_, ?_⟩
  · intro g hg acc ch pre
    cases acc with
    | permDenied => rfl
    | err m => rfl
    | ok =>
      show treeItems (keepEntries (sortEntries (mapFilesList g ch))) pre =
        treeItems (keepEntries (sortEntries ch)) pre
      rw [keep_sort_mapfiles g hg]
      apply treeItems_congr
      intro e2 he2 p l
      exact treeEntry_mapfiles_aux g hg (sizeOf ch) e2
        (le_of_lt (mem_keep_sort_size he2)) p l
  · intro acc ch pre
    cases acc with
    | permDenied => exact List.Forall₂.cons ⟨pre, rfl⟩ List.Forall₂.nil
    | err m => exact List.Forall₂.cons ⟨pre, rfl⟩ List.Forall₂.nil
    | ok =>
      show List.Forall₂ _ (treeItems (keepEntries (sortEntries ch)) pre)
        (dfsLabelItems (keepEntries (sortEntries ch)))
      exact forall2_items _ _ (fun e2 he2 isl =>
        forall2_tree_labels_aux (sizeOf ch) e2
          (le_of_lt (mem_keep_sort_size he2)) pre isl)
  · intro ch nm pre h
    induction h generalizing pre with
    | here f ch2 hmem =>
      have hkeep : keepEntry (FSEntry.file f) = true := by simp [keepEntry, entryIsDir]
      have hmem2 : FSEntry.file f ∈ keepEntries (sortEntries ch2) :=
        List.mem_filter.mpr ⟨mem_sortEntries.mpr hmem, hkeep⟩
      obtain ⟨isLast, hsub⟩ := treeEntry_subset_treeItems _ pre _ hmem2
      have hline : pre ++ connector isLast ++ f.name ∈
          treeEntry (FSEntry.file f) pre isLast := by
        simp [treeEntry]
      exact ⟨pre ++ connector isLast ++ f.name, hsub _ hline,
        pre ++ connector isLast, rfl⟩
    | deeper n sub ch2 nm2 hdir hnskip hreach ih =>
      have hkeep : keepEntry (FSEntry.dir n DirAccess.ok sub) = true := by
        simp [keepEntry, entryIsDir, entryName, hnskip]
      have hmem2 : FSEntry.dir n DirAccess.ok sub ∈ keepEntries (sortEntries ch2) :=
        List.mem_filter.mpr ⟨mem_sortEntries.mpr hdir, hkeep⟩
      obtain ⟨isLast, hsub⟩ := treeEntry_subset_treeItems _ pre _ hmem2
      obtain ⟨line, hline, p, hp⟩ := ih (pre ++ prefixExt isLast)
      have hunf : treeEntry (FSEntry.dir n DirAccess.ok sub) pre isLast =
          (pre ++ connector isLast ++ (n ++ "/")) ::
            treeItems (keepEntries (sortEntries sub)) (pre ++ prefixExt isLast) := by
        simp [treeEntry]
      have hline2 : line ∈ treeEntry (FSEntry.dir n DirAccess.ok sub) pre isLast := by
        rw [hunf]
        exact List.mem_cons_of_mem _ hline
      exact ⟨line, hsub _ hline2, p, hp⟩

/-- A pair is collected from a sibling list exactly when some sibling
contributes it. -/
theorem mem_collectItems : ∀ (items : List FSEntry) (pre : List String)
    (pc : List String × String),
    pc ∈ collectItems items pre ↔ ∃ e ∈ items, pc ∈ collectEntry e pre := by
  intro items
  induction items with
  | nil =>
    intro pre pc
    have h0 : collectItems [] pre = [] := by simp [collectItems]
    rw [h0]
    simp
  | cons e rest ih =>
    intro pre pc
    have h1 : collectItems (e :: rest) pre =
        collectEntry e pre ++ collectItems rest pre := by simp [collectItems]
    rw [h1, List.mem_append, ih]
    constructor
    · rintro (h | ⟨e2, he2, h⟩)
      · exact ⟨e, by simp, h⟩
      · exact ⟨e2, List.mem_cons_of_mem _ he2, h⟩
    · rintro ⟨e2, he2, h⟩
      rcases List.mem_cons.mp he2 with heq | hm
      · exact Or.inl (heq ▸ h)
      · exact Or.inr ⟨e2, hm, h⟩

/-- Every pair collected from an entry has a relative path that starts
with the given prefix followed by the entry's own name. -/
theorem collect_path_shape : ∀ (N : Nat) (e : FSEntry), sizeOf e ≤ N →
    ∀ (pre p : List String) (c : String), (p, c) ∈ collectEntry e pre →
      ∃ rest, p = pre ++ entryName e :: rest := by
  intro N
  induction N with
  | zero =>
    intro e he pre p c hmem
    exact absurd he (by simpa using Nat.not_le_of_lt (sizeOf_entry_pos e))
  | succ N ih =>
    intro e he pre p c hmem
    cases e with
    | file f =>
      have h1 : collectEntry (FSEntry.file f) pre =
          if should_include_file f.name f.statSize then
            [(pre ++ [f.name], read_file_content f)] else [] := by simp [collectEntry]
      rw [h1] at hmem
      by_cases hinc : should_include_file f.name f.statSize = true
      · rw [if_pos hinc] at hmem
        have heq := List.mem_singleton.mp hmem
        have hp : p = pre ++ [f.name] := congrArg Prod.fst heq
        exact ⟨[], hp⟩
      · rw [if_neg hinc] at hmem
        cases hmem
    | dir n acc ch =>
      cases acc with
      | permDenied =>
        have h1 : collectEntry (FSEntry.dir n DirAccess.permDenied ch) pre = [] := by
          simp [collectEntry]
        rw [h1] at hmem
        cases hmem
      | err m =>
        have h1 : collectEntry (FSEntry.dir n (DirAccess.err m) ch) pre = [] := by
          simp [collectEntry]
        rw [h1] at hmem
        cases hmem
      | ok =>
        have h1 : collectEntry (FSEntry.dir n DirAccess.ok ch) pre =
            collectItems (keepEntries (sortEntries ch)) (pre ++ [n]) := by
          simp [collectEntry]
        rw [h1] at hmem
        obtain ⟨e2, he2, hm2⟩ := (mem_collectItems _ _ _).mp hmem
        have hsz : sizeOf e2 ≤ N := by
          have hlt := mem_keep_sort_size he2
          have hd : sizeOf (FSEntry.dir n DirAccess.ok ch) =
              1 + sizeOf n + sizeOf DirAccess.ok + sizeOf ch := by simp_arith
          omega
        obtain ⟨rest, hrest⟩ := ih e2 hsz (pre ++ [n]) p c hm2
        refine ⟨entryName e2 :: rest, ?_⟩
        rw [hrest, List.append_assoc]
        rfl

/-- Every pair collected from an entry comes from a file node that the
Classifier includes, carries that file's Reader output, and ends its
relative path with that file's name. -/
theorem collect_provenance : ∀ (N : Nat) (e : FSEntry), sizeOf e ≤ N →
    ∀ (pre p : List String) (c : String), (p, c) ∈ collectEntry e pre →
      ∃ f : FileNode, should_include_file f.name f.statSize = true ∧
        c = read_file_content f ∧ p ≠ [] ∧ p.getLast? = some f.name := by
  intro N
  induction N with
  | zero =>
    intro e he pre p c hmem
    exact absurd he (by simpa using Nat.not_le_of_lt (sizeOf_entry_pos e))
  | succ N ih =>
    intro e he pre p c hmem
    cases e with
    | file f =>
      have h1 : collectEntry (FSEntry.file f) pre =
          if should_include_file f.name f.statSize then
            [(pre ++ [f.name], read_file_content f)] else [] := by simp [collectEntry]
      rw [h1] at hmem
      by_cases hinc : should_include_file f.name f.statSize = true
      · rw [if_pos hinc] at hmem
        have heq := List.mem_singleton.mp hmem
        have hp : p = pre ++ [f.name] := congrArg Prod.fst heq
        have hc : c = read_file_content f := congrArg Prod.snd heq
        refine ⟨f, hinc, hc, ?_, ?_⟩
        · rw [hp]; simp
        · rw [hp]
          simp
      · rw [if_neg hinc] at hmem
        cases hmem
    | dir n acc ch =>
      cases acc with
      | permDenied =>
        have h1 : collectEntry (FSEntry.dir n DirAccess.permDenied ch) pre = [] := by
          simp [collectEntry]
        rw [h1] at hmem
        cases hmem
      | err m =>
        have h1 : collectEntry (FSEntry.dir n (DirAccess.err m) ch) pre = [] := by
          simp [collectEntry]
        rw [h1] at hmem
        cases hmem
      | ok =>
        have h1 : collectEntry (FSEntry.dir n DirAccess.ok ch) pre =
            collectItems (keepEntries (sortEntries ch)) (pre ++ [n]) := by
          simp [collectEntry]
        rw [h1] at hmem
        obtain ⟨e2, he2, hm2⟩ := (mem_collectItems _ _ _).mp hmem
        have hsz : sizeOf e2 ≤ N := by
          have hlt := mem_keep_sort_size he2
          have hd : sizeOf (FSEntry.dir n DirAccess.ok ch) =
              1 + sizeOf n + sizeOf DirAccess.ok + sizeOf ch := by simp_arith
          omega
        exact ih e2 hsz (pre ++ [n]) p c hm2

/-- Kept, sorted sibling names stay distinct when the original sibling
names are distinct. -/
theorem keep_sort_names_nodup {ch : List FSEntry}
    (h : (ch.map entryName).Nodup) :
    ((keepEntries (sortEntries ch)).map entryName).Nodup := by
  have hperm : List.Perm ((sortEntries ch).map entryName) (ch.map entryName) :=
    (sortEntries_perm ch).map entryName
  have hnd1 : ((sortEntries ch).map entryName).Nodup := hperm.nodup_iff.mpr h
  have hsub : List.Sublist ((keepEntries (sortEntries ch)).map entryName)
      ((sortEntries ch).map entryName) :=
    (List.filter_sublist _).map entryName
  exact hnd1.sublist hsub

/-- Siblings with distinct names have pairwise disjoint contributions
(the path's segment right after the prefix differs), so the collection
loop emits no relative path twice. -/
theorem collectItems_nodup_of : ∀ (items : List FSEntry) (pre : List String),
    (items.map entryName).Nodup →
    (∀ e ∈ items, ((collectEntry e pre).map Prod.fst).Nodup) →
    (∀ e ∈ items, ∀ p c, (p, c) ∈ collectEntry e pre →
      ∃ rest, p = pre ++ entryName e :: rest) →
    ((collectItems items pre).map Prod.fst).Nodup := by
  intro items
  induction items with
  | nil =>
    intro pre _ _ _
    have h0 : collectItems [] pre = [] := by simp [collectItems]
    rw [h0]
    exact List.nodup_nil
  | cons e rest ih =>
    intro pre hnd hone hshape
    have h1 : collectItems (e :: rest) pre =
        collectEntry e pre ++ collectItems rest pre := by simp [collectItems]
    rw [h1, List.map_append]
    rcases List.nodup_cons.mp hnd with ⟨hnotin, hndr⟩
    refine List.nodup_append.mpr ⟨hone e (by simp),
      ih pre hndr (fun e2 he2 => hone e2 (List.mem_cons_of_mem _ he2))
        (fun e2 he2 => hshape e2 (List.mem_cons_of_mem _ he2)), ?_⟩
    intro a ha hb
    obtain ⟨⟨p1, c1⟩, hpc1, hfst1⟩ := List.mem_map.mp ha
    obtain ⟨rest1, hr1⟩ := hshape e (by simp) p1 c1 hpc1
    obtain ⟨⟨p2, c2⟩, hpc2, hfst2⟩ := List.mem_map.mp hb
    obtain ⟨e2, he2, hm2⟩ := (mem_collectItems _ _ _).mp hpc2
    obtain ⟨rest2, hr2⟩ := hshape e2 (List.mem_cons_of_mem _ he2) p2 c2 hm2
    have hp12 : p1 = p2 := by rw [show p1 = a from hfst1, show p2 = a from hfst2]
    have hcat : pre ++ entryName e :: rest1 = pre ++ entryName e2 :: rest2 := by
      rw [← hr1, ← hr2, hp12]
    have htail : entryName e :: rest1 = entryName e2 :: rest2 :=
      List.append_cancel_left hcat
    have hname : entryName e = entryName e2 := (List.cons.injEq _ _ _ _ ▸ htail).1
    exact hnotin (hname.symm ▸ List.mem_map_of_mem entryName he2)

/-- A well-formed entry contributes distinct relative paths
(bounded induction on size). -/
theorem collect_nodup_aux : ∀ (N : Nat) (e : FSEntry), sizeOf e ≤ N → WFe e →
    ∀ pre : List String, ((collectEntry e pre).map Prod.fst).Nodup := by
  intro N
  induction N with
  | zero =>
    intro e he
    exact absurd he (by simpa using Nat.not_le_of_lt (sizeOf_entry_pos e))
  | succ N ih =>
    intro e he hwf pre
    cases e with
    | file f =>
      have h1 : collectEntry (FSEntry.file f) pre =
          if should_include_file f.name f.statSize then
            [(pre ++ [f.name], read_file_content f)] else [] := by simp [collectEntry]
      rw [h1]
      by_cases hinc : should_include_file f.name f.statSize = true
      · rw [if_pos hinc]; simp
      · rw [if_neg hinc]; simp
    | dir n acc ch =>
      cases hwf with
      | dir _ _ _ hnames hch =>
        cases acc with
        | permDenied =>
          have h1 : collectEntry (FSEntry.dir n DirAccess.permDenied ch) pre = [] := by
            simp [collectEntry]
          rw [h1]
          exact List.nodup_nil
        | err m =>
          have h1 : collectEntry (FSEntry.dir n (DirAccess.err m) ch) pre = [] := by
            simp [collectEntry]
          rw [h1]
          exact List.nodup_nil
        | ok =>
          have h1 : collectEntry (FSEntry.dir n DirAccess.ok ch) pre =
              collectItems (keepEntries (sortEntries ch)) (pre ++ [n]) := by
            simp [collectEntry]
          rw [h1]
          have hbound : ∀ e2 ∈ keepEntries (sortEntries ch), sizeOf e2 ≤ N := by
            intro e2 he2
            have hlt := mem_keep_sort_size he2
            have hd : sizeOf (FSEntry.dir n DirAccess.ok ch) =
                1 + sizeOf n + sizeOf DirAccess.ok + sizeOf ch := by simp_arith
            omega
          apply collectItems_nodup_of
          · exact keep_sort_names_nodup hnames
          · intro e2 he2
            exact ih e2 (hbound e2 he2)
              (hch e2 (mem_sortEntries.mp (List.mem_of_mem_filter he2))) _
          · intro e2 he2 p c hm
            exact collect_path_shape N e2 (hbound e2 he2) (pre ++ [n]) p c hm

/-- C5: both traversals sort each directory's entries by the shared key
(directories first, then case-insensitive lexicographic name): the sort
ascends in that key and permutes the entries; on the spec's example
siblings it produces A, a.txt, b.txt; every pair the Content Collector
emits comes from a file satisfying the Classifier's inclusion rule,
with the Reader's content for it and a path ending in its name; and on a
well-formed filesystem (distinct sibling names) no relative path is
emitted twice. -/
theorem C5_ordering_inclusion_and_uniqueness :
    (∀ l : List FSEntry,
      (sortEntries l).Pairwise (fun a b => sortKey a ≤ sortKey b) ∧
      List.Perm (sortEntries l) l) ∧
    ((sortEntries [FSEntry.file ⟨"b.txt", none, Except.ok []⟩,
        FSEntry.dir "A" DirAccess.ok [],
        FSEntry.file ⟨"a.txt", none, Except.ok []⟩]).map entryName =
      ["A", "a.txt", "b.txt"]) ∧
    (∀ (ch : List FSEntry) (p : List String) (c : String),
      (p, c) ∈ collect_file_contents DirAccess.ok ch →
      ∃ f : FileNode, should_include_file f.name f.statSize = true ∧
        c = read_file_content f ∧ p ≠ [] ∧ p.getLast? = some f.name) ∧
    (∀ ch : List FSEntry, WFl ch →
      ((collect_file_contents DirAccess.ok ch).map Prod.fst).Nodup) := by
  refine ⟨fun l => ⟨sortEntries_sorted l, sortEntries_perm l⟩, rfl, ?_, ?_⟩
  · intro ch p c hmem
    obtain ⟨e2, he2, hm2⟩ := (mem_collectItems _ _ _).mp hmem
    exact collect_provenance (sizeOf ch) e2 (le_of_lt (mem_keep_sort_size he2)) [] p c hm2
  · rintro ch ⟨hnames, hwfs⟩
    apply collectItems_nodup_of
    · exact keep_sort_names_nodup hnames
    · intro e2 he2
      exact collect_nodup_aux (sizeOf ch) e2 (le_of_lt (mem_keep_sort_size he2))
        (hwfs e2 (mem_sortEntries.mp (List.mem_of_mem_filter he2))) _
    · intro e2 he2 p c hm
      exact collect_path_shape (sizeOf ch) e2 (le_of_lt (mem_keep_sort_size he2)) [] p c hm

end RepoScanner
